import Mathlib

/-!
Verification of the fixed-capacity link-state routing calculator
(`include/link_state/node.hpp`, `include/link_state/calculator.hpp`).

The embedding is shallow: a node record mirrors `link_state::node`
(identifier, the meaningful prefix of the parallel `edges`/`edge_costs`
arrays as a list of pairs, predecessor, distance, finalized flag), and the
calculator state mirrors `link_state::calculator` (fixed array of nodes of
length `max_nodes`, live count).  The `cost_type` template parameter is
embedded as `Nat` together with a bit width `width = 8 * sizeof(cost_type)`:
`max_distance` is `2 ^ width - 1` (the value the constructor assembles by
OR-ing `0xFF` once per byte) and addition wraps modulo `2 ^ width`, as the
unsigned machine addition in `loop()` does.  Identifiers are embedded as
`Nat` with `0` as the reserved "absent / no predecessor" sentinel.

The unbounded predecessor walk of `get_next_hop` and the removal scan of
`cleanup` are embedded with explicit fuel returning `Option` (`none` models
non-termination of the C++ loop); every other operation is structurally
recursive exactly like its C++ counterpart.
-/

namespace LinkState

/-- One graph vertex, mirroring `link_state::node`.  `edges` holds the
first `edge_count` entries of the parallel `edges` / `edge_costs` arrays
as `(neighbour id, cost)` pairs; slots past `edge_count` are never read by
the calculator. -/
structure Node where
  id : Nat
  edges : List (Nat × Nat)
  previous_node : Nat
  distance : Nat
  shortest_path_known : Bool
deriving Repr, DecidableEq

/-- The default (value-initialised) node: id `0`, no edges, predecessor `0`,
distance `0`, shortest path not known. -/
def dnode : Node := ⟨0, [], 0, 0, false⟩

/-- Calculator state, mirroring `link_state::calculator`.  `width` is the
bit width of the instantiated `cost_type`; `nodes` is the backing array
(length `max_nodes`); `node_count` counts the live prefix. -/
structure Calc where
  width : Nat
  max_nodes : Nat
  nodes : List Node
  node_count : Nat
deriving Repr, DecidableEq

/-- `max_distance`, as assembled by the constructor: all-ones for the
cost type, i.e. `2 ^ width - 1`. -/
def Calc.maxDistance (c : Calc) : Nat := 2 ^ c.width - 1

/-- Wrapping addition of the unsigned `cost_type`. -/
def Calc.addW (c : Calc) (a b : Nat) : Nat := (a + b) % 2 ^ c.width

/-- Read the backing array (out-of-range reads give the default node;
the C++ code never performs them on well-formed states). -/
def getN (c : Calc) (i : Nat) : Node := c.nodes.getD i dnode

/-- The constructor `calculator(source_id)`: a zeroed array, slot 0
becomes the source node with distance 0, count 1. -/
def mkCalculator (width max_nodes source_id : Nat) : Calc :=
  { width := width, max_nodes := max_nodes,
    nodes := (List.replicate max_nodes dnode).set 0 { dnode with id := source_id },
    node_count := 1 }

/-- First index of a node with identifier `id` in a list, or the length
of the list when absent (the scan of `get_index_by_id`). -/
def scanIdx (id : Nat) : List Node → Nat
  | [] => 0
  | n :: ns => if n.id = id then 0 else scanIdx id ns + 1

/-- `get_index_by_id`: linear scan over the live prefix; returns
`node_count` when the identifier is absent. -/
def Calc.get_index_by_id (c : Calc) (id : Nat) : Nat :=
  scanIdx id (c.nodes.take c.node_count)

/-- `insert_replace`: overwrite the slot found by `get_index_by_id`; when
the identifier was absent that slot is `nodes[node_count]` and the count is
incremented.  On a full calculator the C++ write is out of bounds and the
count still grows past `max_nodes` (`List.set` out of range is a no-op,
so the model keeps the array intact while reproducing the silent count
overflow). -/
def Calc.insert_replace (c : Calc) (n : Node) : Calc :=
  let i := c.get_index_by_id n.id
  let nodes' := c.nodes.set i n
  if i = c.node_count then
    { c with nodes := nodes', node_count := c.node_count + 1 }
  else
    { c with nodes := nodes' }

/-- The compaction loop of `remove`: slots `i .. node_count-2` receive
the old slots `i+1 .. node_count-1`, slot `node_count-1` is
default-initialised, and slots past the old count are untouched. -/
def shiftOut (c : Calc) (i : Nat) : List Node :=
  c.nodes.take i ++ ((c.nodes.drop (i + 1)).take (c.node_count - 1 - i))
    ++ dnode :: c.nodes.drop (c.node_count - 1 + 1)

/-- `remove`: refuse for the source slot (index 0) and for unknown
identifiers; otherwise compact the live prefix and decrement the count. -/
def Calc.remove (c : Calc) (id : Nat) : Bool × Calc :=
  let i := c.get_index_by_id id
  if i ≠ c.node_count ∧ i ≠ 0 then
    (true, { c with node_count := c.node_count - 1, nodes := shiftOut c i })
  else (false, c)

/-- One check-and-step of the predecessor walk of `get_next_hop`, with
fuel.  `none` means the fuel ran out, i.e. the C++ `while` loop has not
terminated within that many iterations. -/
def Calc.walkF (c : Calc) : Nat → Node → Option Nat
  | 0, _ => none
  | fuel + 1, cur =>
    if cur.previous_node = (getN c 0).id then some cur.id
    else
      let i := c.get_index_by_id cur.previous_node
      if cur.distance = c.maxDistance then some 0
      else if cur.shortest_path_known = false then some 0
      else if cur.previous_node = 0 then some 0
      else if i = c.node_count then some 0
      else c.walkF fuel (getN c i)

/-- `get_next_hop`: locate the destination (absent ids give the sentinel
`0`), then walk the predecessor chain. -/
def Calc.get_next_hop (c : Calc) (fuel : Nat) (id : Nat) : Option Nat :=
  let i := c.get_index_by_id id
  if i = c.node_count then some 0
  else c.walkF fuel (getN c i)

/-- The seeding scan of `setup()` on one node's edge list: the first edge
whose neighbour is the source and whose cost is below the node's current
distance (which is `max_distance` until the `break`). -/
def seedDist (srcId maxD : Nat) : List (Nat × Nat) → Option Nat
  | [] => none
  | e :: es => if e.1 = srcId ∧ e.2 < maxD then some e.2 else seedDist srcId maxD es

/-- The body of the `setup()` loop on the node at index `i`: the source
slot only gets `shortest_path_known := true`; every other live slot is
reset to unknown/`max_distance` and then seeded from its own edge list.
`previous_node` is written only when the seeding scan succeeds. -/
def setupNode (srcId maxD cnt i : Nat) (nd : Node) : Node :=
  if i = 0 then { nd with shortest_path_known := true }
  else if i < cnt then
    match seedDist srcId maxD nd.edges with
    | some cst =>
      { nd with shortest_path_known := false, distance := cst,
                previous_node := srcId }
    | none => { nd with shortest_path_known := false, distance := maxD }
  else nd

/-- Apply `setupNode` to every slot, tracking the slot index. -/
def setupNodes (srcId maxD cnt : Nat) : Nat → List Node → List Node
  | _, [] => []
  | i, nd :: rest => setupNode srcId maxD cnt i nd :: setupNodes srcId maxD cnt (i + 1) rest

/-- `setup()`. -/
def Calc.setup (c : Calc) : Calc :=
  { c with nodes := setupNodes (getN c 0).id c.maxDistance c.node_count 0 c.nodes }

/-- The minimum scan of `loop()`: over the given indices in order, keep the
first strict improvement among non-finalized nodes.  The accumulator starts
at `(max_distance, 0)`. -/
def minScan (c : Calc) : List Nat → Nat × Nat → Nat × Nat
  | [], acc => acc
  | i :: is, acc =>
    let nd := getN c i
    if nd.shortest_path_known then minScan c is acc
    else if nd.distance < acc.1 then minScan c is (nd.distance, i)
    else minScan c is acc

/-- Selection step of one `loop()` round: minimum tentative distance among
the non-finalized nodes at indices `1 .. node_count - 1`. -/
def Calc.selectMin (c : Calc) : Nat × Nat :=
  minScan c (List.range' 1 (c.node_count - 1)) (c.maxDistance, 0)

/-- One relaxation of edge `j` of the node at `curIdx` (the selected
minimum): skip unknown or already-finalized neighbours, otherwise update
the neighbour's distance/predecessor when the (wrapping) sum improves it.
The current node is re-read from the state, as the C++ reference is. -/
def relaxStep (c : Calc) (curIdx j : Nat) : Calc :=
  let cur := getN c curIdx
  let e := cur.edges.getD j (0, 0)
  let ni := c.get_index_by_id e.1
  if ni = c.node_count then c
  else
    let nb := getN c ni
    if nb.shortest_path_known then c
    else if c.addW cur.distance e.2 < nb.distance then
      let nb' := { nb with distance := c.addW cur.distance e.2, previous_node := cur.id }
      { c with nodes := c.nodes.set ni nb' }
    else c

/-- Iterate `relaxStep` over edge indices `j, j+1, ...` (`k` of them). -/
def relaxAux (curIdx : Nat) : Nat → Nat → Calc → Calc
  | _, 0, c => c
  | j, k + 1, c => relaxAux curIdx (j + 1) k (relaxStep c curIdx j)

/-- Relax all edges of the node at `curIdx`. -/
def Calc.relaxEdges (c : Calc) (curIdx : Nat) : Calc :=
  relaxAux curIdx 0 (getN c curIdx).edges.length c

/-- One round of `loop()`: select the minimum; abort the whole loop when it
equals `max_distance` (`none`); otherwise relax the selected node's edges
and finalize it. -/
def Calc.round (c : Calc) : Option Calc :=
  let m := c.selectMin
  if m.1 = c.maxDistance then none
  else
    let c' := c.relaxEdges m.2
    let fin := { getN c' m.2 with shortest_path_known := true }
    some { c' with nodes := c'.nodes.set m.2 fin }

/-- The `for definitive_node_count` iteration of `loop()`:
at most `k` rounds, stopping early when a round aborts. -/
def loopAux : Nat → Calc → Calc
  | 0, c => c
  | k + 1, c =>
    match c.round with
    | none => c
    | some c' => loopAux k c'

/-- `loop()`: `node_count - 1` rounds. -/
def Calc.loop (c : Calc) : Calc := loopAux (c.node_count - 1) c

/-- All stored parallel-edge costs between the live slots `u` and `v`. -/
def edgeCostsBetween (c : Calc) (u v : Nat) : List Nat :=
  if u = 0 then ((getN c v).edges.filter (fun e => e.1 = (getN c 0).id)).map Prod.snd
  else ((getN c u).edges.filter (fun e => e.1 = (getN c v).id)).map Prod.snd

/-- Minimum of a list of naturals (`0` for the empty list, which is only
read when the list is known nonempty). -/
def minOfList : List Nat → Nat
  | [] => 0
  | a :: as => as.foldl min a

/-- Weight of the cheapest known edge from `u` to `v`. -/
def wt (c : Calc) (u v : Nat) : Nat := minOfList (edgeCostsBetween c u v)

/-- A walkable list of slot indices: nonempty, all live, consecutive
slots joined by a known edge. -/
def chainOK (c : Calc) : List Nat → Bool
  | [] => false
  | [v] => decide (v < c.node_count)
  | u :: v :: rest =>
    decide (u < c.node_count) && decide (edgeCostsBetween c u v ≠ [])
      && chainOK c (v :: rest)

/-- Cost of a walk: sum of the cheapest parallel edge over each step. -/
def chainCost (c : Calc) : List Nat → Nat
  | [] => 0
  | [_] => 0
  | u :: v :: rest => wt c u v + chainCost c (v :: rest)

/-- A path from slot `a` to slot `b` over the known graph. -/
def IsPathFT (c : Calc) (a b : Nat) (l : List Nat) : Prop :=
  chainOK c l = true ∧ l.head? = some a ∧ l.getLast? = some b

/-- Slot `i` is reachable from the source over the known graph. -/
def Reachable (c : Calc) (i : Nat) : Prop := ∃ l, IsPathFT c 0 i l

/-- `d` is the true shortest-path cost from the source to slot `i`:
attained by some known path, and no known path is cheaper. -/
def IsDelta (c : Calc) (i d : Nat) : Prop :=
  (∃ l, IsPathFT c 0 i l ∧ chainCost c l = d)
    ∧ ∀ l, IsPathFT c 0 i l → d ≤ chainCost c l

/-- Sum of all edge costs stored at slot `i`. -/
def costSum (c : Calc) (i : Nat) : Nat := ((getN c i).edges.map Prod.snd).sum

/-- Sum of the costs of slot `i`'s entries naming the source identifier. -/
def srcPart (c : Calc) (i : Nat) : Nat :=
  (((getN c i).edges.filter (fun e => e.1 = (getN c 0).id)).map Prod.snd).sum

/-- Sum of the costs of slot `i`'s entries NOT naming the source. -/
def nonSrcPart (c : Calc) (i : Nat) : Nat :=
  (((getN c i).edges.filter (fun e => ¬ e.1 = (getN c 0).id)).map Prod.snd).sum

/-- Total of every stored edge cost over the live slots. -/
def edgeTotal (c : Calc) : Nat :=
  (Finset.range c.node_count).sum (fun i => costSum c i)

/-- The finalized non-source live slots. -/
def finSet (c : Calc) : Finset Nat :=
  (Finset.range c.node_count).filter
    (fun i => 1 ≤ i ∧ (getN c i).shortest_path_known = true)

/-- Claim C1's property, at a given state: every live finalized node's
distance is attained by a path over the known graph and no known path is
cheaper. -/
def OptimalDistances (c : Calc) : Prop :=
  ∀ i, i < c.node_count → (getN c i).shortest_path_known = true →
    ∃ l, IsPathFT c 0 i l ∧ chainCost c l = (getN c i).distance
      ∧ ∀ l', IsPathFT c 0 i l' → (getN c i).distance ≤ chainCost c l'

/-! ### Tracing the predecessor walk of `get_next_hop` -/

/-- The four abort checks of one iteration of the `get_next_hop` walk all
pass. -/
def goodStep (c : Calc) (nd : Node) : Prop :=
  nd.distance ≠ c.maxDistance ∧ nd.shortest_path_known = true
    ∧ nd.previous_node ≠ 0 ∧ c.get_index_by_id nd.previous_node ≠ c.node_count

instance (c : Calc) (nd : Node) : Decidable (goodStep c nd) := by
  unfold goodStep; infer_instance

/-- The node inspected at step `k` of the predecessor walk starting from
`start`, provided every earlier step both avoided the loop exit and passed
all four checks. -/
def visitedFrom (c : Calc) (start : Node) : Nat → Option Node
  | 0 => some start
  | k + 1 =>
    match visitedFrom c start k with
    | none => none
    | some nd =>
      if nd.previous_node ≠ (getN c 0).id ∧ goodStep c nd
      then some (getN c (c.get_index_by_id nd.previous_node))
      else none

/-! ### Well-formedness

The conditions the spec itself places on calculator states: §3 (live
nodes stored contiguously with distinct nonzero-free identifiers, source
at slot 0 with distance 0) and §6 (the cost type is wide enough for every
summed distance, embodied here as: the total of all stored edge costs is
below `max_distance`, so no sum the algorithm forms can overflow). -/
structure WF (c : Calc) : Prop where
  hlen : c.nodes.length = c.max_nodes
  hcnt : c.node_count ≤ c.max_nodes
  hpos : 1 ≤ c.node_count
  hw : 1 ≤ c.width
  hids : ∀ i j, i < j → j < c.node_count → (getN c i).id ≠ (getN c j).id
  hsrc : (getN c 0).distance = 0
  hdist : ∀ i, i < c.node_count → (getN c i).distance ≤ c.maxDistance
  hsum : edgeTotal c < c.maxDistance

/-- No node lists the source more than once among its edges (rules out
the parallel-edges-to-source case that `setup()`'s first-match `break`
mishandles). -/
def NoParallelSource (c : Calc) : Prop :=
  ∀ i, 1 ≤ i → i < c.node_count →
    ((getN c i).edges.filter (fun e => e.1 = (getN c 0).id)).length ≤ 1

/-! ### Concrete states used as counterexamples and witnesses -/

/-- Source id 1; node id 2 lists the source twice, at costs 5 then 3. -/
def exC1 : Calc :=
  { width := 8, max_nodes := 2,
    nodes := [{ dnode with id := 1 }, ⟨2, [(1, 5), (1, 3)], 0, 0, false⟩],
    node_count := 2 }

/-- A two-node cycle in the predecessor chain: both nodes finalized with
finite distances, each naming the other as predecessor. -/
def exC3 : Calc :=
  { width := 8, max_nodes := 3,
    nodes := [{ dnode with id := 1 }, ⟨2, [], 3, 1, true⟩, ⟨3, [], 2, 1, true⟩],
    node_count := 3 }

/-- Destination (id 2) whose stored predecessor is already the source
identifier while its distance is `max_distance` and its flag false. -/
def exC4 : Calc :=
  { width := 8, max_nodes := 2,
    nodes := [{ dnode with id := 1 }, ⟨2, [], 1, 255, false⟩],
    node_count := 2 }

/-- The spec §8 example scenario: source A=1, edges A–B cost 1,
B–C cost 1, A–C cost 5, every endpoint listing each of its edges. -/
def exScen : Calc :=
  { width := 8, max_nodes := 3,
    nodes := [⟨1, [(2, 1), (3, 5)], 0, 0, false⟩, ⟨2, [(1, 1), (3, 1)], 0, 0, false⟩,
              ⟨3, [(2, 1), (1, 5)], 0, 0, false⟩],
    node_count := 3 }

/-- A four-node state for the removal/pruning witnesses: ids 1,2,3,4,
id 2 connected to the source, ids 3 and 4 isolated. -/
def exPrune : Calc :=
  { width := 8, max_nodes := 4,
    nodes := [⟨1, [(2, 1)], 0, 0, false⟩, ⟨2, [(1, 1)], 0, 0, false⟩,
              ⟨3, [], 0, 0, false⟩, ⟨4, [], 0, 0, false⟩],
    node_count := 4 }

/-- The two states describe the same known graph: same cost width, same
live count, and every slot keeps its identifier and edge list.  All of
`setup()` and `loop()` preserve this. -/
def GraphEq (c d : Calc) : Prop :=
  c.width = d.width ∧ c.node_count = d.node_count
    ∧ ∀ k, (getN c k).id = (getN d k).id ∧ (getN c k).edges = (getN d k).edges

/-- Total stored edge cost over the non-source live slots. -/
def innerTotal (c : Calc) : Nat :=
  (Finset.Ico 1 c.node_count).sum (fun i => costSum c i)

/-- The budget available to slot `i`'s tentative distance: its own
source-naming entries plus everything stored at the already-finalized
non-source slots other than `i`.  Every distance the algorithm writes
stays within this bound, which is what rules out overflow. -/
def budgetB (c : Calc) (i : Nat) : Nat :=
  srcPart c i + ((finSet c).erase i).sum (fun v => costSum c v)

/-- The invariant maintained by `setup()` and each round of `loop()`.
The unconditional fields suffice for pruning soundness; the fields
guarded by `NoParallelSource` state exact shortest-path optimality. -/
structure LoopInv (c : Calc) : Prop where
  hlen : c.node_count ≤ c.nodes.length
  hpos : 1 ≤ c.node_count
  hw : 1 ≤ c.width
  hids : ∀ i j, i < j → j < c.node_count → (getN c i).id ≠ (getN c j).id
  hsum : innerTotal c < c.maxDistance
  f0 : (getN c 0).shortest_path_known = true
  d0 : (getN c 0).distance = 0
  reach : ∀ i, 1 ≤ i → i < c.node_count →
    (getN c i).distance ≠ c.maxDistance → Reachable c i
  budget : ∀ i, 1 ≤ i → i < c.node_count →
    (getN c i).distance = c.maxDistance ∨ (getN c i).distance ≤ budgetB c i
  cross : ∀ u, u < c.node_count → (getN c u).shortest_path_known = true →
    ∀ b, 1 ≤ b → b < c.node_count → (getN c b).shortest_path_known = false →
      edgeCostsBetween c u b ≠ [] → (getN c b).distance ≠ c.maxDistance
  settledR : ∀ i, i < c.node_count →
    (getN c i).shortest_path_known = true → Reachable c i
  finFinite : ∀ i, i < c.node_count →
    (getN c i).shortest_path_known = true → (getN c i).distance ≠ c.maxDistance
  exactD : NoParallelSource c → ∀ i, i < c.node_count →
    (getN c i).shortest_path_known = true → IsDelta c i (getN c i).distance
  frontier : NoParallelSource c → ∀ u, u < c.node_count →
    (getN c u).shortest_path_known = true → ∀ b, 1 ≤ b → b < c.node_count →
      (getN c b).shortest_path_known = false → edgeCostsBetween c u b ≠ [] →
      (getN c b).distance ≤ (getN c u).distance + wt c u b
  frontAtt : NoParallelSource c → ∀ b, 1 ≤ b → b < c.node_count →
    (getN c b).shortest_path_known = false →
    (getN c b).distance = c.maxDistance
      ∨ ∃ u, u < c.node_count ∧ (getN c u).shortest_path_known = true
          ∧ edgeCostsBetween c u b ≠ []
          ∧ (getN c b).distance = (getN c u).distance + wt c u b


/-- Pure form of the relaxation fold over an edge list: starting from
`d0`, an entry naming `tid` lowers the value to `dA + cost` whenever that
is an improvement. -/
def relaxedDist (dA tid : Nat) (es : List (Nat × Nat)) (d0 : Nat) : Nat :=
  es.foldl (fun d e => if e.1 = tid ∧ dA + e.2 < d then dA + e.2 else d) d0

theorem getD_take (L : List Node) (n k : Nat) :
    (L.take n).getD k dnode = if k < n then L.getD k dnode else dnode := by
  rw [List.getD_eq_getElem?_getD, List.getD_eq_getElem?_getD, List.getElem?_take]
  by_cases h : k < n <;> simp [h, Option.getD]

theorem getD_set (L : List Node) (i : Nat) (v : Node) (k : Nat) :
    (L.set i v).getD k dnode
      = if k = i ∧ i < L.length then v else L.getD k dnode := by
  rw [List.getD_eq_getElem?_getD, List.getD_eq_getElem?_getD, List.getElem?_set]
  by_cases h1 : i = k
  · subst h1
    by_cases h2 : i < L.length
    · simp [h2]
    · simp [h2, List.getElem?_eq_none (by omega : L.length ≤ i)]
  · have : ¬ (k = i ∧ i < L.length) := fun hh => h1 hh.1.symm
    simp [h1, this]

theorem getD_append (A B : List Node) (k : Nat) :
    (A ++ B).getD k dnode
      = if k < A.length then A.getD k dnode else B.getD (k - A.length) dnode := by
  rw [List.getD_eq_getElem?_getD, List.getD_eq_getElem?_getD,
    List.getD_eq_getElem?_getD, List.getElem?_append]
  by_cases h : k < A.length <;> simp [h]

theorem getD_drop (L : List Node) (n k : Nat) :
    (L.drop n).getD k dnode = L.getD (n + k) dnode := by
  rw [List.getD_eq_getElem?_getD, List.getD_eq_getElem?_getD, List.getElem?_drop]

theorem getD_ge_length (L : List Node) (k : Nat) (h : L.length ≤ k) :
    L.getD k dnode = dnode := by
  rw [List.getD_eq_getElem?_getD, List.getElem?_eq_none (by omega)]
  rfl

/-! `scanIdx` (the body of `get_index_by_id`) -/

theorem scanIdx_le_length (id : Nat) (L : List Node) : scanIdx id L ≤ L.length := by
  induction L with
  | nil => simp [scanIdx]
  | cons n ns ih =>
    by_cases h : n.id = id <;> simp [scanIdx, h] <;> omega

theorem scanIdx_found (id : Nat) (L : List Node) (h : scanIdx id L < L.length) :
    (L.getD (scanIdx id L) dnode).id = id := by
  induction L with
  | nil => simp [scanIdx] at h
  | cons n ns ih =>
    by_cases hn : n.id = id
    · simp [scanIdx, hn]
    · simp only [scanIdx, hn, if_false] at h ⊢
      simpa using ih (by simpa using h)

theorem scanIdx_before (id : Nat) (L : List Node) (k : Nat) (h : k < scanIdx id L) :
    (L.getD k dnode).id ≠ id := by
  induction L generalizing k with
  | nil => simp [scanIdx] at h
  | cons n ns ih =>
    by_cases hn : n.id = id
    · simp [scanIdx, hn] at h
    · simp only [scanIdx, hn, if_false] at h
      cases k with
      | zero => simpa using hn
      | succ k => simpa using ih k (by omega)

theorem scanIdx_le_of_found (id : Nat) (L : List Node) (j : Nat)
    (hj : j < L.length) (hid : (L.getD j dnode).id = id) : scanIdx id L ≤ j := by
  by_contra h
  exact scanIdx_before id L j (by omega) hid

theorem scanIdx_eq_length (id : Nat) (L : List Node)
    (h : ∀ k, k < L.length → (L.getD k dnode).id ≠ id) : scanIdx id L = L.length := by
  rcases Nat.lt_or_ge (scanIdx id L) L.length with hl | hl
  · exact absurd (scanIdx_found id L hl) (h _ hl)
  · exact Nat.le_antisymm (scanIdx_le_length id L) hl

/-! `get_index_by_id` on well-formed prefixes -/

theorem take_getD_lt (c : Calc) (k : Nat) (h : k < c.node_count) :
    ((c.nodes.take c.node_count).getD k dnode) = getN c k := by
  rw [getD_take, if_pos h]; rfl

theorem length_take_count (c : Calc) (hlen : c.node_count ≤ c.nodes.length) :
    (c.nodes.take c.node_count).length = c.node_count := by
  simp [List.length_take]; omega

theorem get_index_le (c : Calc) (id : Nat) (hlen : c.node_count ≤ c.nodes.length) :
    c.get_index_by_id id ≤ c.node_count := by
  have := scanIdx_le_length id (c.nodes.take c.node_count)
  rwa [length_take_count c hlen] at this

theorem get_index_found (c : Calc) (id : Nat) (hlen : c.node_count ≤ c.nodes.length)
    (h : c.get_index_by_id id < c.node_count) :
    (getN c (c.get_index_by_id id)).id = id := by
  have h' : scanIdx id (c.nodes.take c.node_count) < c.node_count := h
  have hx := scanIdx_found id (c.nodes.take c.node_count)
    (by rwa [length_take_count c hlen])
  rw [take_getD_lt c _ h'] at hx
  exact hx

theorem get_index_before (c : Calc) (id : Nat) (k : Nat)
    (hk : k < c.get_index_by_id id) (hkc : k < c.node_count) :
    (getN c k).id ≠ id := by
  have hx := scanIdx_before id (c.nodes.take c.node_count) k hk
  rwa [take_getD_lt c _ hkc] at hx

theorem get_index_eq_count (c : Calc) (id : Nat) (hlen : c.node_count ≤ c.nodes.length)
    (h : ∀ k, k < c.node_count → (getN c k).id ≠ id) :
    c.get_index_by_id id = c.node_count := by
  have hx : ∀ k, k < (c.nodes.take c.node_count).length →
      ((c.nodes.take c.node_count).getD k dnode).id ≠ id := by
    intro k hk
    rw [length_take_count c hlen] at hk
    rw [take_getD_lt c k hk]
    exact h k hk
  have := scanIdx_eq_length id (c.nodes.take c.node_count) hx
  rwa [length_take_count c hlen] at this

theorem get_index_of_mem (c : Calc) (id : Nat) (hlen : c.node_count ≤ c.nodes.length)
    (j : Nat) (hj : j < c.node_count) (hid : (getN c j).id = id) :
    c.get_index_by_id id ≤ j := by
  have := scanIdx_le_of_found id (c.nodes.take c.node_count) j
    (by rwa [length_take_count c hlen]) (by rwa [take_getD_lt c j hj])
  exact this

/-- With pairwise-distinct live identifiers, lookup of slot `j`'s id
returns exactly `j`. -/
theorem get_index_self (c : Calc) (hlen : c.node_count ≤ c.nodes.length)
    (hids : ∀ i j, i < j → j < c.node_count → (getN c i).id ≠ (getN c j).id)
    (j : Nat) (hj : j < c.node_count) :
    c.get_index_by_id (getN c j).id = j := by
  have hle := get_index_of_mem c (getN c j).id hlen j hj rfl
  rcases Nat.lt_or_ge (c.get_index_by_id (getN c j).id) j with hlt | hge
  · have hfound := get_index_found c (getN c j).id hlen (by omega)
    exact absurd hfound (hids _ j hlt hj)
  · omega

/-- Unfolding of `insert_replace` in the replace branch. -/
theorem insert_replace_replace_eq (c : Calc) (n : Node)
    (h : ¬ c.get_index_by_id n.id = c.node_count) :
    c.insert_replace n = { c with nodes := c.nodes.set (c.get_index_by_id n.id) n } := by
  simp only [Calc.insert_replace, h, if_false]

/-- Unfolding of `insert_replace` in the append branch. -/
theorem insert_replace_append_eq (c : Calc) (n : Node)
    (h : c.get_index_by_id n.id = c.node_count) :
    c.insert_replace n
      = { c with nodes := c.nodes.set c.node_count n, node_count := c.node_count + 1 } := by
  simp only [Calc.insert_replace, h]
  simp

/-- First-occurrence characterisation of `get_index_by_id`. -/
theorem get_index_eq_iff (c : Calc) (id : Nat) (hlen : c.node_count ≤ c.nodes.length)
    (j : Nat) (hj : j < c.node_count) (hid : (getN c j).id = id)
    (hbefore : ∀ k, k < j → (getN c k).id ≠ id) :
    c.get_index_by_id id = j := by
  have hle := get_index_of_mem c id hlen j hj hid
  rcases Nat.lt_or_ge (c.get_index_by_id id) j with hlt | hge
  · have hfound := get_index_found c id hlen (by omega)
    exact absurd hfound (hbefore _ hlt)
  · omega

/-! ## Claim C2 -/

/-- C2: the claim requires `insert_replace` of a new identifier on a full
calculator to fail with `CapacityExceeded`, leaving storage untouched.
The code has no error channel at all (the embedded `insert_replace`
returns a plain state): on a full capacity-1 calculator holding only the
source (id 1), upserting id 2 silently drives `node_count` past
`max_nodes` — in C++ the accompanying write `nodes[1]` is out of bounds. -/
theorem C2_silent_capacity_overflow :
    (mkCalculator 8 1 1).node_count = (mkCalculator 8 1 1).max_nodes
    ∧ ((mkCalculator 8 1 1).insert_replace ⟨2, [], 0, 0, false⟩).node_count
        = (mkCalculator 8 1 1).max_nodes + 1 := by decide

/-! ## Claim C6 -/

/-- C6: `remove` fails and leaves the state unchanged for the source
identifier (slot 0) and for identifiers absent from the live prefix; for
a live non-source identifier it returns true, decrements the count,
shifts every later live node down one slot (relative order preserved)
and resets the vacated slot to the default node. -/
theorem C6_remove_spec (c : Calc) (id : Nat)
    (hlen : c.node_count ≤ c.nodes.length) :
    (1 ≤ c.node_count → id = (getN c 0).id → c.remove id = (false, c))
    ∧ ((∀ k, k < c.node_count → (getN c k).id ≠ id) → c.remove id = (false, c))
    ∧ (id ≠ (getN c 0).id → ∀ j, j < c.node_count → (getN c j).id = id →
        (c.remove id).1 = true
        ∧ (c.remove id).2.node_count = c.node_count - 1
        ∧ (∀ k, k < c.get_index_by_id id → getN (c.remove id).2 k = getN c k)
        ∧ (∀ k, c.get_index_by_id id ≤ k → k + 1 < c.node_count →
            getN (c.remove id).2 k = getN c (k + 1))
        ∧ getN (c.remove id).2 (c.node_count - 1) = dnode) := by
  refine ⟨?_, ?_, ?_⟩
  · intro hpos hid
    have hle := get_index_of_mem c id hlen 0 (by omega) hid.symm
    have h0 : c.get_index_by_id id = 0 := by omega
    simp [Calc.remove, h0]
  · intro habs
    have hc := get_index_eq_count c id hlen habs
    simp [Calc.remove, hc]
  · intro hsrc j hj hjid
    have hle := get_index_of_mem c id hlen j hj hjid
    have hlt : c.get_index_by_id id < c.node_count := by omega
    have hfound := get_index_found c id hlen hlt
    have hne0 : c.get_index_by_id id ≠ 0 := by
      intro h0
      rw [h0] at hfound
      exact hsrc hfound.symm
    set i := c.get_index_by_id id with hi
    have hcond : i ≠ c.node_count ∧ i ≠ 0 := ⟨by omega, hne0⟩
    have hrem : c.remove id
        = (true, { c with node_count := c.node_count - 1, nodes := shiftOut c i }) := by
      rw [Calc.remove]
      simp only [← hi]
      rw [if_pos hcond]
    have hlentake : (c.nodes.take i).length = i := by
      simp [List.length_take]; omega
    have hlenmid : ((c.nodes.drop (i + 1)).take (c.node_count - 1 - i)).length
        = c.node_count - 1 - i := by
      simp [List.length_take, List.length_drop]; omega
    refine ⟨by rw [hrem], by rw [hrem], ?_, ?_, ?_⟩
    · intro k hk
      rw [hrem]
      show (shiftOut c i).getD k dnode = _
      rw [shiftOut, List.append_assoc, getD_append, if_pos (by omega), getD_take,
        if_pos (by omega)]
      rfl
    · intro k hk1 hk2
      rw [hrem]
      show (shiftOut c i).getD k dnode = _
      rw [shiftOut, List.append_assoc, getD_append, if_neg (by omega), getD_append,
        if_pos (by omega), hlentake, getD_take, if_pos (by omega), getD_drop]
      have harith : i + 1 + (k - i) = k + 1 := by omega
      rw [harith]
      rfl
    · rw [hrem]
      show (shiftOut c i).getD (c.node_count - 1) dnode = _
      rw [shiftOut, List.append_assoc, getD_append, if_neg (by omega), getD_append,
        if_neg (by omega), hlentake, hlenmid]
      have harith : c.node_count - 1 - i - (c.node_count - 1 - i) = 0 := by omega
      rw [harith]
      rfl

/-- Witness for C6 on a concrete state: removing live non-source id 3
succeeds, and removing the source id 1 or the absent id 99 fails. -/
theorem C6_remove_spec_witness :
    exPrune.node_count ≤ exPrune.nodes.length
    ∧ (exPrune.remove 3).1 = true
    ∧ exPrune.remove 1 = (false, exPrune)
    ∧ exPrune.remove 99 = (false, exPrune) :=
  ⟨by decide,
   ((C6_remove_spec exPrune 3 (by decide)).2.2 (by decide) 2 (by decide) (by decide)).1,
   (C6_remove_spec exPrune 1 (by decide)).1 (by decide) (by decide),
   (C6_remove_spec exPrune 99 (by decide)).2.1 (by decide)⟩

/-! ## Claim C9 -/

/-- C9: upserting an existing identifier replaces that record in place —
position kept, `node_count` unchanged, all other slots untouched, and
doing it twice equals doing it once; upserting a new identifier with
capacity available appends it at slot `node_count` and increments the
count by exactly one. -/
theorem C9_upsert_spec (c : Calc) (n : Node)
    (hlen : c.node_count ≤ c.nodes.length) :
    ((∀ j, j < c.node_count → (getN c j).id ≠ n.id) → c.node_count < c.nodes.length →
        (c.insert_replace n).node_count = c.node_count + 1
        ∧ getN (c.insert_replace n) c.node_count = n
        ∧ (∀ k, k ≠ c.node_count → getN (c.insert_replace n) k = getN c k))
    ∧ (∀ j, j < c.node_count → (getN c j).id = n.id →
        (c.insert_replace n).node_count = c.node_count
        ∧ c.get_index_by_id n.id < c.node_count
        ∧ getN (c.insert_replace n) (c.get_index_by_id n.id) = n
        ∧ (∀ k, k ≠ c.get_index_by_id n.id → getN (c.insert_replace n) k = getN c k)
        ∧ (c.insert_replace n).insert_replace n = c.insert_replace n) := by
  constructor
  · intro habs hroom
    have hc : c.get_index_by_id n.id = c.node_count := get_index_eq_count c n.id hlen habs
    have h1 := insert_replace_append_eq c n hc
    refine ⟨by rw [h1], ?_, ?_⟩
    · rw [h1]
      show (c.nodes.set c.node_count n).getD c.node_count dnode = n
      rw [getD_set, if_pos ⟨rfl, by omega⟩]
    · intro k hk
      rw [h1]
      show (c.nodes.set c.node_count n).getD k dnode = c.nodes.getD k dnode
      rw [getD_set, if_neg (fun hh => hk hh.1)]
  · intro j hj hjid
    have hle := get_index_of_mem c n.id hlen j hj hjid
    have hlt : c.get_index_by_id n.id < c.node_count := by omega
    set i := c.get_index_by_id n.id with hi
    have hne : ¬ i = c.node_count := by omega
    have h1 : c.insert_replace n = { c with nodes := c.nodes.set i n } :=
      insert_replace_replace_eq c n hne
    have hslot : getN (c.insert_replace n) i = n := by
      rw [h1]
      show (c.nodes.set i n).getD i dnode = n
      rw [getD_set, if_pos ⟨rfl, by omega⟩]
    have hother : ∀ k, k ≠ i → getN (c.insert_replace n) k = getN c k := by
      intro k hk
      rw [h1]
      show (c.nodes.set i n).getD k dnode = c.nodes.getD k dnode
      rw [getD_set, if_neg (fun hh => hk hh.1)]
    refine ⟨by rw [h1], hlt, hslot, hother, ?_⟩
    have hlen1 : (c.insert_replace n).node_count ≤ (c.insert_replace n).nodes.length := by
      rw [h1]
      simpa using hlen
    have hid1 : (getN (c.insert_replace n) i).id = n.id := by rw [hslot]
    have hbef1 : ∀ k, k < i → (getN (c.insert_replace n) k).id ≠ n.id := by
      intro k hk
      rw [hother k (by omega)]
      exact get_index_before c n.id k hk (by omega)
    have hcnt1 : (c.insert_replace n).node_count = c.node_count := by rw [h1]
    have hidx1 : (c.insert_replace n).get_index_by_id n.id = i :=
      get_index_eq_iff _ n.id hlen1 i (by omega) hid1 hbef1
    have hne1 : ¬ (c.insert_replace n).get_index_by_id n.id
        = (c.insert_replace n).node_count := by
      rw [hidx1, hcnt1]; omega
    have h2 := insert_replace_replace_eq (c.insert_replace n) n hne1
    rw [h2, hidx1, h1]
    simp [List.set_set]

/-- Witness for C9 on a concrete state: replacing id 2 keeps the count,
appending new id 9 increments it. -/
theorem C9_upsert_spec_witness :
    exPrune.node_count ≤ exPrune.nodes.length
    ∧ (exPrune.insert_replace ⟨2, [(1, 4)], 0, 0, false⟩).node_count = exPrune.node_count
    ∧ ((mkCalculator 8 4 1).insert_replace ⟨9, [], 0, 0, false⟩).node_count
        = (mkCalculator 8 4 1).node_count + 1 :=
  ⟨by decide,
   ((C9_upsert_spec exPrune ⟨2, [(1, 4)], 0, 0, false⟩ (by decide)).2 1
      (by decide) (by decide)).1,
   ((C9_upsert_spec (mkCalculator 8 4 1) ⟨9, [], 0, 0, false⟩ (by decide)).1
      (by decide) (by decide)).1⟩

/-! ## Claim C10 -/

theorem seedDist_none (srcId maxD : Nat) (es : List (Nat × Nat))
    (h : ∀ e ∈ es, e.1 ≠ srcId) : seedDist srcId maxD es = none := by
  induction es with
  | nil => rfl
  | cons e rest ih =>
    have he : ¬ (e.1 = srcId ∧ e.2 < maxD) := fun hh => h e (by simp) hh.1
    simp only [seedDist, he, if_false]
    exact ih (fun x hx => h x (by simp [hx]))

theorem setupNodes_getD (srcId maxD cnt : Nat) (L : List Node) (i k : Nat) :
    (setupNodes srcId maxD cnt i L).getD k dnode
      = if k < L.length then setupNode srcId maxD cnt (i + k) (L.getD k dnode)
        else dnode := by
  induction L generalizing i k with
  | nil => simp [setupNodes]
  | cons nd rest ih =>
    cases k with
    | zero => simp [setupNodes]
    | succ k =>
      have hstep : (setupNodes srcId maxD cnt i (nd :: rest)).getD (k + 1) dnode
          = (setupNodes srcId maxD cnt (i + 1) rest).getD k dnode := by
        simp [setupNodes]
      rw [hstep, ih]
      have harith : i + 1 + k = i + (k + 1) := by omega
      rcases Nat.lt_or_ge k rest.length with hk | hk
      · rw [if_pos hk, if_pos (by simp; omega), List.getD_cons_succ, harith]
      · rw [if_neg (by omega), if_neg (by simp; omega)]

theorem setup_getN (c : Calc) (k : Nat) :
    getN c.setup k
      = if k < c.nodes.length
        then setupNode (getN c 0).id c.maxDistance c.node_count k (getN c k)
        else dnode := by
  show (setupNodes (getN c 0).id c.maxDistance c.node_count 0 c.nodes).getD k dnode = _
  rw [setupNodes_getD, Nat.zero_add]
  rfl

/-- C10: `setup()` does not write `previous_node` of a live non-source
node none of whose edges names the source identifier: such a node keeps
its (possibly stale) predecessor, and only its `shortest_path_known` flag
and `distance` are reset (to `false` / `max_distance`). -/
theorem C10_setup_preserves_stale_predecessor (c : Calc) (i : Nat)
    (h1 : 1 ≤ i) (h2 : i < c.node_count) (hlen : c.node_count ≤ c.nodes.length)
    (hnoedge : ∀ e ∈ (getN c i).edges, e.1 ≠ (getN c 0).id) :
    getN c.setup i
      = { getN c i with shortest_path_known := false, distance := c.maxDistance } := by
  rw [setup_getN c i, if_pos (by omega)]
  rw [setupNode, if_neg (by omega), if_pos h2,
    seedDist_none (getN c 0).id c.maxDistance (getN c i).edges hnoedge]

/-- Witness for C10: in `exC4`, node id 2 (slot 1) has no edges and a
stale predecessor 1; after `setup()` the predecessor is still 1 while the
flag and distance were reset. -/
theorem C10_setup_preserves_stale_predecessor_witness :
    1 ≤ (1 : Nat) ∧ 1 < exC4.node_count
    ∧ getN exC4.setup 1
        = { getN exC4 1 with shortest_path_known := false, distance := exC4.maxDistance } :=
  ⟨le_refl 1, by decide,
   C10_setup_preserves_stale_predecessor exC4 1 (by decide) (by decide) (by decide)
     (by decide)⟩

/-! ## Claim C5 -/

/-- C5 counterexample: on a freshly set-up two-node calculator with
source id 1, `get_next_hop` answers the sentinel `0` both for the source
itself and for the absent id 99 (a genuine no-route case): the self-route
query is NOT distinguishable from the no-route outcome. -/
theorem C5_counterexample :
    (mkCalculator 8 2 1).setup.get_next_hop 10 1 = some 0
    ∧ (mkCalculator 8 2 1).setup.get_next_hop 10 99 = some 0 := by decide

/-- C5 (amended): for every state whose source slot keeps its constructed
shape (`previous_node = 0`, nonzero id, distance below `max_distance`),
`get_next_hop(source_id)` returns the in-band sentinel `0` — the very
value used for "no route" — rather than any distinguishable no-hop
result. -/
theorem C5_self_route_is_sentinel (c : Calc) (fuel : Nat) (hf : 1 ≤ fuel)
    (hcnt : 1 ≤ c.node_count) (hlen : c.node_count ≤ c.nodes.length)
    (hprev : (getN c 0).previous_node = 0) (hid : (getN c 0).id ≠ 0)
    (hdist : (getN c 0).distance ≠ c.maxDistance) :
    c.get_next_hop fuel (getN c 0).id = some 0 := by
  have hidx : c.get_index_by_id (getN c 0).id = 0 := by
    have := get_index_of_mem c (getN c 0).id hlen 0 (by omega) rfl
    omega
  have hne : ¬ c.get_index_by_id (getN c 0).id = c.node_count := by omega
  show (if c.get_index_by_id (getN c 0).id = c.node_count then some 0
    else c.walkF fuel (getN c (c.get_index_by_id (getN c 0).id))) = some 0
  rw [if_neg hne, hidx]
  obtain ⟨f, rfl⟩ : ∃ f, fuel = f + 1 := ⟨fuel - 1, by omega⟩
  rw [Calc.walkF]
  rw [if_neg (by rw [hprev]; exact fun hh => hid hh.symm)]
  rw [if_neg hdist]
  cases hspk : (getN c 0).shortest_path_known with
  | false => rw [if_pos rfl]
  | true =>
    rw [if_neg (by simp)]
    rw [if_pos hprev]

/-- Witness for C5's amended theorem on a concrete calculator. -/
theorem C5_self_route_is_sentinel_witness :
    (1 : Nat) ≤ 1 ∧ (getN (mkCalculator 8 2 1) 0).id ≠ 0
    ∧ (mkCalculator 8 2 1).get_next_hop 1 (getN (mkCalculator 8 2 1) 0).id = some 0 :=
  ⟨le_refl 1, by decide,
   C5_self_route_is_sentinel (mkCalculator 8 2 1) 1 (by decide) (by decide) (by decide)
     (by decide) (by decide) (by decide)⟩

/-! ## Claim C4 -/

/-- C4 counterexample: in `exC4` the destination id 2 is live, its
distance equals `max_distance` and its flag is false — by the claim the
first step of the walk must abort with `0` — yet because its stored
predecessor already equals the source identifier, `get_next_hop` skips
every check and returns the destination's own id 2. -/
theorem C4_counterexample :
    exC4.get_index_by_id 2 < exC4.node_count
    ∧ (getN exC4 (exC4.get_index_by_id 2)).distance = exC4.maxDistance
    ∧ (getN exC4 (exC4.get_index_by_id 2)).shortest_path_known = false
    ∧ exC4.get_next_hop 10 2 = some 2
    ∧ (2 : Nat) ≠ 0 := by decide

theorem walkF_shift (c : Calc) (k : Nat) (start nd : Node)
    (hv : visitedFrom c start k = some nd) :
    ∀ fuel, k < fuel → c.walkF fuel start = c.walkF (fuel - k) nd := by
  induction k generalizing nd with
  | zero =>
    intro fuel hfu
    have h0 : start = nd := by simpa [visitedFrom] using hv
    simp [h0]
  | succ k ih =>
    intro fuel hfu
    rcases hvk : visitedFrom c start k with _ | nd'
    · have hv2 : (none : Option Node) = some nd := by
        rw [← hv, visitedFrom, hvk]
      exact absurd hv2 (by simp)
    · have hv2 : visitedFrom c start (k + 1)
          = (match visitedFrom c start k with
            | none => none
            | some nd' =>
              if nd'.previous_node ≠ (getN c 0).id ∧ goodStep c nd'
              then some (getN c (c.get_index_by_id nd'.previous_node))
              else none) := by rw [visitedFrom]
      rw [hvk] at hv2
      have hv3 : (if nd'.previous_node ≠ (getN c 0).id ∧ goodStep c nd'
          then some (getN c (c.get_index_by_id nd'.previous_node))
          else none) = some nd := by
        have hvv := hv
        rw [hv2] at hvv
        exact hvv
      by_cases hcond : nd'.previous_node ≠ (getN c 0).id ∧ goodStep c nd'
      · rw [if_pos hcond] at hv3
        have hnd : nd = getN c (c.get_index_by_id nd'.previous_node) := by
          simpa using hv3.symm
        have hih := ih nd' hvk fuel (by omega)
        obtain ⟨m, hm⟩ : ∃ m, fuel - k = m + 1 := ⟨fuel - k - 1, by omega⟩
        rw [hih, hm, Calc.walkF, if_neg hcond.1]
        obtain ⟨hd, hs, hp, hx⟩ := hcond.2
        rw [if_neg hd, if_neg (by simp [hs]), if_neg hp, if_neg hx]
        have hmm : m = fuel - (k + 1) := by omega
        rw [← hnd, hmm]
      · rw [if_neg hcond] at hv3
        exact absurd hv3 (by simp)

/-- C4 (amended): an absent destination yields the sentinel `0`; and the
four abort checks fire at every walked node whose stored predecessor
differs from the source identifier — a node whose predecessor already
equals the source id is returned without any validation (that exemption,
shown by the counterexample, is the only change from the claim). -/
theorem C4_next_hop_aborts (c : Calc) (fuel id : Nat) :
    (c.get_index_by_id id = c.node_count → c.get_next_hop fuel id = some 0)
    ∧ (c.get_index_by_id id ≠ c.node_count →
        ∀ k nd, k < fuel →
          visitedFrom c (getN c (c.get_index_by_id id)) k = some nd →
          nd.previous_node ≠ (getN c 0).id →
          (nd.distance = c.maxDistance ∨ nd.shortest_path_known = false
            ∨ nd.previous_node = 0
            ∨ c.get_index_by_id nd.previous_node = c.node_count) →
          c.get_next_hop fuel id = some 0) := by
  constructor
  · intro h
    show (if c.get_index_by_id id = c.node_count then some 0 else _) = some 0
    rw [if_pos h]
  · intro h k nd hk hv hprev hbad
    show (if c.get_index_by_id id = c.node_count then some 0
      else c.walkF fuel (getN c (c.get_index_by_id id))) = some 0
    rw [if_neg h, walkF_shift c k _ nd hv fuel hk]
    obtain ⟨m, hm⟩ : ∃ m, fuel - k = m + 1 := ⟨fuel - k - 1, by omega⟩
    rw [hm, Calc.walkF, if_neg hprev]
    rcases hbad with hb | hb | hb | hb
    · rw [if_pos hb]
    · by_cases h1 : nd.distance = c.maxDistance
      · rw [if_pos h1]
      · rw [if_neg h1, if_pos (by simp [hb])]
    · by_cases h1 : nd.distance = c.maxDistance
      · rw [if_pos h1]
      · rw [if_neg h1]
        by_cases h2 : nd.shortest_path_known = false
        · rw [if_pos h2]
        · rw [if_neg h2, if_pos hb]
    · by_cases h1 : nd.distance = c.maxDistance
      · rw [if_pos h1]
      · rw [if_neg h1]
        by_cases h2 : nd.shortest_path_known = false
        · rw [if_pos h2]
        · rw [if_neg h2]
          by_cases h3 : nd.previous_node = 0
          · rw [if_pos h3]
          · rw [if_neg h3, if_pos hb]

/-- Witness for C4's amended theorem: in `exPrune`, destination id 3 has
predecessor `0` (≠ source id 1), so the walk aborts with the sentinel. -/
theorem C4_next_hop_aborts_witness :
    exPrune.get_index_by_id 3 ≠ exPrune.node_count
    ∧ exPrune.get_next_hop 1 3 = some 0 :=
  ⟨by decide,
   (C4_next_hop_aborts exPrune 1 3).2 (by decide) 0
     (getN exPrune (exPrune.get_index_by_id 3)) (by decide) rfl (by decide) (by decide)⟩

/-! ## Claim C3 -/

theorem exC3_walk_cycles (n : Nat) :
    exC3.walkF n (getN exC3 1) = none ∧ exC3.walkF n (getN exC3 2) = none := by
  induction n with
  | zero => exact ⟨rfl, rfl⟩
  | succ n ih =>
    constructor
    · have hstep : exC3.walkF (n + 1) (getN exC3 1) = exC3.walkF n (getN exC3 2) := rfl
      rw [hstep]; exact ih.2
    · have hstep : exC3.walkF (n + 1) (getN exC3 2) = exC3.walkF n (getN exC3 1) := rfl
      rw [hstep]; exact ih.1

/-- C3: the claim (and spec) require the predecessor walk to be bounded
by `node_count` steps, with the excess reported as a cycle error; the
source's walk is unbounded.  In `exC3` (a two-node predecessor cycle
among finalized nodes with finite distances) `get_next_hop 2` exhausts
ANY amount of fuel — the C++ `while` loop never terminates, instead of
reporting a cycle after `node_count` steps. -/
theorem C3_walk_nonterminating :
    (getN exC3 1).shortest_path_known = true
    ∧ (getN exC3 2).shortest_path_known = true
    ∧ (getN exC3 1).distance ≠ exC3.maxDistance
    ∧ (getN exC3 2).distance ≠ exC3.maxDistance
    ∧ ∀ fuel, exC3.get_next_hop fuel 2 = none := by
  refine ⟨by decide, by decide, by decide, by decide, ?_⟩
  intro fuel
  have hidx : exC3.get_index_by_id 2 = 1 := by decide
  show (if exC3.get_index_by_id 2 = exC3.node_count then some 0
    else exC3.walkF fuel (getN exC3 (exC3.get_index_by_id 2))) = none
  rw [if_neg (by decide), hidx]
  exact (exC3_walk_cycles fuel).1

/-! ## The selection scan of `loop()` -/

theorem minScan_le_acc (c : Calc) (l : List Nat) (acc : Nat × Nat) :
    (minScan c l acc).1 ≤ acc.1 := by
  induction l generalizing acc with
  | nil => exact le_refl _
  | cons i is ih =>
    by_cases h1 : (getN c i).shortest_path_known
    · simpa [minScan, h1] using ih acc
    · by_cases h2 : (getN c i).distance < acc.1
      · have := ih ((getN c i).distance, i)
        simp only [minScan, h1, if_false, h2, if_true, if_pos, if_neg]
        calc (minScan c is ((getN c i).distance, i)).1 ≤ (getN c i).distance := this
          _ ≤ acc.1 := le_of_lt h2
      · simpa [minScan, h1, h2] using ih acc

theorem minScan_le_elem (c : Calc) (l : List Nat) (acc : Nat × Nat) :
    ∀ i ∈ l, (getN c i).shortest_path_known = false →
      (minScan c l acc).1 ≤ (getN c i).distance := by
  induction l generalizing acc with
  | nil => intro i h; exact absurd h (by simp)
  | cons a as ih =>
    intro i hmem hspk
    rcases List.mem_cons.mp hmem with rfl | htail
    · by_cases h2 : (getN c i).distance < acc.1
      · simp only [minScan, hspk, if_false, Bool.false_eq_true, h2, if_true, if_pos]
        exact minScan_le_acc c as _
      · simp only [minScan, hspk, if_false, Bool.false_eq_true, h2, if_neg]
        calc (minScan c as acc).1 ≤ acc.1 := minScan_le_acc c as acc
          _ ≤ (getN c i).distance := by omega
    · by_cases h1 : (getN c a).shortest_path_known
      · simpa [minScan, h1] using ih acc i htail hspk
      · by_cases h2 : (getN c a).distance < acc.1
        · simpa [minScan, h1, h2] using ih ((getN c a).distance, a) i htail hspk
        · simpa [minScan, h1, h2] using ih acc i htail hspk

theorem minScan_attained (c : Calc) (l : List Nat) (acc : Nat × Nat) :
    minScan c l acc = acc
    ∨ ((minScan c l acc).2 ∈ l
        ∧ (getN c (minScan c l acc).2).shortest_path_known = false
        ∧ (getN c (minScan c l acc).2).distance = (minScan c l acc).1
        ∧ (minScan c l acc).1 < acc.1) := by
  induction l generalizing acc with
  | nil => exact Or.inl rfl
  | cons a as ih =>
    by_cases h1 : (getN c a).shortest_path_known
    · have hrw : minScan c (a :: as) acc = minScan c as acc := by simp [minScan, h1]
      rw [hrw]
      rcases ih acc with h | h
      · exact Or.inl h
      · exact Or.inr ⟨by simp [h.1], h.2⟩
    · by_cases h2 : (getN c a).distance < acc.1
      · have hrw : minScan c (a :: as) acc = minScan c as ((getN c a).distance, a) := by
          simp [minScan, h1, h2]
        rw [hrw]
        rcases ih ((getN c a).distance, a) with h | h
        · rw [h]
          exact Or.inr ⟨by simp, by simpa using h1, rfl, h2⟩
        · refine Or.inr ⟨by simp [h.1], h.2.1, h.2.2.1, ?_⟩
          calc (minScan c as ((getN c a).distance, a)).1
              < (getN c a).distance := h.2.2.2
            _ < acc.1 := h2
      · have hrw : minScan c (a :: as) acc = minScan c as acc := by simp [minScan, h1, h2]
        rw [hrw]
        rcases ih acc with h | h
        · exact Or.inl h
        · exact Or.inr ⟨by simp [h.1], h.2⟩

theorem selectMin_le (c : Calc) :
    ∀ i, 1 ≤ i → i < c.node_count → (getN c i).shortest_path_known = false →
      c.selectMin.1 ≤ (getN c i).distance := by
  intro i h1 h2 hspk
  exact minScan_le_elem c _ _ i (by rw [List.mem_range'_1]; omega) hspk

theorem selectMin_le_max (c : Calc) : c.selectMin.1 ≤ c.maxDistance :=
  minScan_le_acc c _ _

/-- When the scan result is strictly below the `max_distance`
accumulator, it names a live non-finalized non-source slot whose distance
attains the minimum. -/
theorem selectMin_attained (c : Calc) (h : c.selectMin.1 ≠ c.maxDistance) :
    1 ≤ c.selectMin.2 ∧ c.selectMin.2 < c.node_count
    ∧ (getN c c.selectMin.2).shortest_path_known = false
    ∧ (getN c c.selectMin.2).distance = c.selectMin.1 := by
  have hsel : c.selectMin
      = minScan c (List.range' 1 (c.node_count - 1)) (c.maxDistance, 0) := rfl
  rcases minScan_attained c (List.range' 1 (c.node_count - 1)) (c.maxDistance, 0) with hh | hh
  · rw [hsel] at h
    exact absurd (congrArg Prod.fst hh) h
  · rw [hsel]
    have hmem := hh.1
    rw [List.mem_range'_1] at hmem
    exact ⟨hmem.1, by omega, hh.2.1, hh.2.2.1⟩

/-! ## Frame facts for one relaxation / one round -/

theorem set_node_fields (c : Calc) (ni : Nat) (v : Node) (k : Nat)
    (hid : v.id = (getN c ni).id) (hed : v.edges = (getN c ni).edges)
    (hspk : v.shortest_path_known = (getN c ni).shortest_path_known)
    (hdist : v.distance ≤ (getN c ni).distance) :
    (getN { c with nodes := c.nodes.set ni v } k).id = (getN c k).id
    ∧ (getN { c with nodes := c.nodes.set ni v } k).edges = (getN c k).edges
    ∧ (getN { c with nodes := c.nodes.set ni v } k).shortest_path_known
        = (getN c k).shortest_path_known
    ∧ (getN { c with nodes := c.nodes.set ni v } k).distance ≤ (getN c k).distance := by
  have hh : getN { c with nodes := c.nodes.set ni v } k
      = if k = ni ∧ ni < c.nodes.length then v else getN c k := by
    show (c.nodes.set ni v).getD k dnode = _
    rw [getD_set]
    rfl
  by_cases hk : k = ni ∧ ni < c.nodes.length
  · obtain ⟨hk1, hk2⟩ := hk
    subst hk1
    rw [hh, if_pos ⟨rfl, hk2⟩]
    exact ⟨hid, hed, hspk, hdist⟩
  · rw [hh, if_neg hk]
    exact ⟨rfl, rfl, rfl, le_refl _⟩

/-- Complete case analysis of one relaxation step: either the state is
unchanged (unknown / finalized neighbour, or no improvement), or exactly
the neighbour slot is overwritten with the improved distance and the
selected node as predecessor. -/
theorem relaxStep_cases (c : Calc) (a j : Nat) :
    relaxStep c a j = c
    ∨ ∃ ni v, ni = c.get_index_by_id ((getN c a).edges.getD j (0, 0)).1
        ∧ relaxStep c a j = { c with nodes := c.nodes.set ni v }
        ∧ v.id = (getN c ni).id ∧ v.edges = (getN c ni).edges
        ∧ v.shortest_path_known = (getN c ni).shortest_path_known
        ∧ v.distance < (getN c ni).distance
        ∧ v.distance = c.addW (getN c a).distance ((getN c a).edges.getD j (0, 0)).2
        ∧ v.previous_node = (getN c a).id
        ∧ (getN c ni).shortest_path_known = false
        ∧ ¬ ni = c.node_count := by
  simp only [relaxStep]
  by_cases h1 : c.get_index_by_id ((getN c a).edges.getD j (0, 0)).1 = c.node_count
  · rw [if_pos h1]
    exact Or.inl rfl
  · rw [if_neg h1]
    by_cases h2 : (getN c (c.get_index_by_id
        ((getN c a).edges.getD j (0, 0)).1)).shortest_path_known = true
    · rw [if_pos h2]
      exact Or.inl rfl
    · rw [if_neg h2]
      by_cases h3 : c.addW (getN c a).distance ((getN c a).edges.getD j (0, 0)).2
          < (getN c (c.get_index_by_id ((getN c a).edges.getD j (0, 0)).1)).distance
      · rw [if_pos h3]
        exact Or.inr ⟨_, _, rfl, rfl, rfl, rfl, rfl, h3, rfl, rfl,
          by simpa using h2, h1⟩
      · rw [if_neg h3]
        exact Or.inl rfl

theorem relaxStep_fields (c : Calc) (a j k : Nat) :
    (relaxStep c a j).width = c.width
    ∧ (relaxStep c a j).max_nodes = c.max_nodes
    ∧ (relaxStep c a j).node_count = c.node_count
    ∧ (relaxStep c a j).nodes.length = c.nodes.length
    ∧ (getN (relaxStep c a j) k).id = (getN c k).id
    ∧ (getN (relaxStep c a j) k).edges = (getN c k).edges
    ∧ (getN (relaxStep c a j) k).shortest_path_known
        = (getN c k).shortest_path_known
    ∧ (getN (relaxStep c a j) k).distance ≤ (getN c k).distance := by
  rcases relaxStep_cases c a j with h | ⟨ni, v, hni, heq, hid, hed, hspk, hdlt, hrest⟩
  · rw [h]
    exact ⟨rfl, rfl, rfl, rfl, rfl, rfl, rfl, le_refl _⟩
  · rw [heq]
    have hs := set_node_fields c ni v k hid hed hspk (le_of_lt hdlt)
    exact ⟨rfl, rfl, rfl, by simp, hs.1, hs.2.1, hs.2.2.1, hs.2.2.2⟩

theorem relaxAux_fields (a : Nat) (j n : Nat) (c : Calc) (k : Nat) :
    (relaxAux a j n c).width = c.width
    ∧ (relaxAux a j n c).max_nodes = c.max_nodes
    ∧ (relaxAux a j n c).node_count = c.node_count
    ∧ (relaxAux a j n c).nodes.length = c.nodes.length
    ∧ (getN (relaxAux a j n c) k).id = (getN c k).id
    ∧ (getN (relaxAux a j n c) k).edges = (getN c k).edges
    ∧ (getN (relaxAux a j n c) k).shortest_path_known
        = (getN c k).shortest_path_known
    ∧ (getN (relaxAux a j n c) k).distance ≤ (getN c k).distance := by
  induction n generalizing j c with
  | zero => exact ⟨rfl, rfl, rfl, rfl, rfl, rfl, rfl, le_refl _⟩
  | succ n ih =>
    have h1 := relaxStep_fields c a j k
    have h2 := ih (j + 1) (relaxStep c a j)
    show (relaxAux a (j + 1) n (relaxStep c a j)).width = c.width ∧ _
    refine ⟨h2.1.trans h1.1, h2.2.1.trans h1.2.1, h2.2.2.1.trans h1.2.2.1,
      h2.2.2.2.1.trans h1.2.2.2.1, h2.2.2.2.2.1.trans h1.2.2.2.2.1,
      h2.2.2.2.2.2.1.trans h1.2.2.2.2.2.1,
      h2.2.2.2.2.2.2.1.trans h1.2.2.2.2.2.2.1,
      h2.2.2.2.2.2.2.2.trans h1.2.2.2.2.2.2.2⟩

theorem relaxEdges_fields (c : Calc) (a k : Nat) :
    (c.relaxEdges a).width = c.width
    ∧ (c.relaxEdges a).max_nodes = c.max_nodes
    ∧ (c.relaxEdges a).node_count = c.node_count
    ∧ (c.relaxEdges a).nodes.length = c.nodes.length
    ∧ (getN (c.relaxEdges a) k).id = (getN c k).id
    ∧ (getN (c.relaxEdges a) k).edges = (getN c k).edges
    ∧ (getN (c.relaxEdges a) k).shortest_path_known
        = (getN c k).shortest_path_known
    ∧ (getN (c.relaxEdges a) k).distance ≤ (getN c k).distance :=
  relaxAux_fields a 0 (getN c a).edges.length c k

theorem round_none_iff (c : Calc) :
    c.round = none ↔ c.selectMin.1 = c.maxDistance := by
  rw [Calc.round]
  by_cases h : c.selectMin.1 = c.maxDistance <;> simp [h]

/-- The state produced by a successful round: the relaxation of the
selected slot's edges, with that slot then finalized. -/
theorem round_some_eq (c : Calc) (h : ¬ c.selectMin.1 = c.maxDistance) :
    c.round = some { c.relaxEdges c.selectMin.2 with
      nodes := (c.relaxEdges c.selectMin.2).nodes.set c.selectMin.2
        { getN (c.relaxEdges c.selectMin.2) c.selectMin.2 with
            shortest_path_known := true } } := by
  rw [Calc.round]
  simp only [h, if_false]

theorem round_fields (c c' : Calc) (h : c.round = some c') (k : Nat) :
    c'.width = c.width ∧ c'.max_nodes = c.max_nodes
    ∧ c'.node_count = c.node_count ∧ c'.nodes.length = c.nodes.length
    ∧ (getN c' k).id = (getN c k).id
    ∧ (getN c' k).edges = (getN c k).edges
    ∧ (getN c' k).distance ≤ (getN c k).distance
    ∧ (k ≠ c.selectMin.2 →
        (getN c' k).shortest_path_known = (getN c k).shortest_path_known)
    ∧ (k = c.selectMin.2 → k < c.nodes.length →
        (getN c' k).shortest_path_known = true
        ∧ (getN c' k).distance = (getN (c.relaxEdges c.selectMin.2) k).distance) := by
  by_cases hmin : c.selectMin.1 = c.maxDistance
  · rw [(round_none_iff c).mpr hmin] at h
    exact absurd h (by simp)
  · rw [round_some_eq c hmin] at h
    have hc' := (Option.some_inj.mp h).symm
    set r := c.relaxEdges c.selectMin.2 with hr
    have hrf := relaxEdges_fields c c.selectMin.2 k
    have hrlen : r.nodes.length = c.nodes.length := hrf.2.2.2.1
    have hw : c'.width = r.width := by rw [hc']
    have hm : c'.max_nodes = r.max_nodes := by rw [hc']
    have hn : c'.node_count = r.node_count := by rw [hc']
    have hnodes : c'.nodes = r.nodes.set c.selectMin.2
        { getN r c.selectMin.2 with shortest_path_known := true } := by rw [hc']
    have hlen : c'.nodes.length = c.nodes.length := by
      rw [hnodes]
      simpa using hrlen
    have hget : getN c' k = if k = c.selectMin.2 ∧ c.selectMin.2 < r.nodes.length
        then { getN r c.selectMin.2 with shortest_path_known := true }
        else getN r k := by
      show c'.nodes.getD k dnode = _
      rw [hnodes, getD_set]
      rfl
    by_cases hk : k = c.selectMin.2 ∧ c.selectMin.2 < r.nodes.length
    · obtain ⟨hk1, hk2⟩ := hk
      subst hk1
      rw [if_pos ⟨rfl, hk2⟩] at hget
      refine ⟨hw.trans hrf.1, hm.trans hrf.2.1, hn.trans hrf.2.2.1, hlen,
        ?_, ?_, ?_, ?_, ?_⟩
      · rw [hget]
        exact hrf.2.2.2.2.1
      · rw [hget]
        exact hrf.2.2.2.2.2.1
      · rw [hget]
        exact hrf.2.2.2.2.2.2.2
      · intro hne
        exact absurd rfl hne
      · intro _ _
        exact ⟨by rw [hget], by rw [hget]⟩
    · rw [if_neg hk] at hget
      refine ⟨hw.trans hrf.1, hm.trans hrf.2.1, hn.trans hrf.2.2.1, hlen,
        ?_, ?_, ?_, ?_, ?_⟩
      · rw [hget]
        exact hrf.2.2.2.2.1
      · rw [hget]
        exact hrf.2.2.2.2.2.1
      · rw [hget]
        exact hrf.2.2.2.2.2.2.2
      · intro _
        rw [hget]
        exact hrf.2.2.2.2.2.2.1
      · intro h1 h2
        exact absurd ⟨h1, by rw [hrlen]; omega⟩ hk

/-! ## Claim C7 -/

theorem flips_none (c : Calc) (n : Nat) :
    ((Finset.range n).filter
      (fun i => (getN c i).shortest_path_known = false
        ∧ (getN c i).shortest_path_known = true)).card = 0 := by
  have hh : ∀ i ∈ Finset.range n,
      ¬((getN c i).shortest_path_known = false
        ∧ (getN c i).shortest_path_known = true) := by
    intro i _ hcontra
    exact Bool.noConfusion (hcontra.1.symm.trans hcontra.2)
  rw [Finset.filter_false_of_mem hh]
  simp

/-- Each executed round finalizes at most one node, so at most `k` flags
flip from false to true over `k` rounds. -/
theorem loopAux_flips (k : Nat) (c : Calc) :
    ((Finset.range c.node_count).filter
      (fun i => (getN c i).shortest_path_known = false
        ∧ (getN (loopAux k c) i).shortest_path_known = true)).card ≤ k := by
  induction k generalizing c with
  | zero =>
    have h0 : loopAux 0 c = c := rfl
    rw [h0]
    rw [flips_none c c.node_count]
  | succ k ih =>
    cases hr : c.round with
    | none =>
      have hstep : loopAux (k + 1) c = c := by simp [loopAux, hr]
      rw [hstep, flips_none c c.node_count]
      omega
    | some c' =>
      have hstep : loopAux (k + 1) c = loopAux k c' := by simp [loopAux, hr]
      rw [hstep]
      have hcnt : c'.node_count = c.node_count := (round_fields c c' hr 0).2.2.1
      have hsub : (Finset.range c.node_count).filter
          (fun i => (getN c i).shortest_path_known = false
            ∧ (getN (loopAux k c') i).shortest_path_known = true)
          ⊆ insert c.selectMin.2
            ((Finset.range c'.node_count).filter
              (fun i => (getN c' i).shortest_path_known = false
                ∧ (getN (loopAux k c') i).shortest_path_known = true)) := by
        intro i hi
        rw [Finset.mem_filter, Finset.mem_range] at hi
        by_cases hmi : i = c.selectMin.2
        · exact Finset.mem_insert.mpr (Or.inl hmi)
        · refine Finset.mem_insert.mpr (Or.inr ?_)
          rw [Finset.mem_filter, Finset.mem_range, hcnt]
          have hpres := (round_fields c c' hr i).2.2.2.2.2.2.2.1 hmi
          exact ⟨hi.1, hpres.trans hi.2.1, hi.2.2⟩
      calc ((Finset.range c.node_count).filter _).card
          ≤ (insert c.selectMin.2 ((Finset.range c'.node_count).filter
              (fun i => (getN c' i).shortest_path_known = false
                ∧ (getN (loopAux k c') i).shortest_path_known = true))).card :=
            Finset.card_le_card hsub
        _ ≤ ((Finset.range c'.node_count).filter
              (fun i => (getN c' i).shortest_path_known = false
                ∧ (getN (loopAux k c') i).shortest_path_known = true)).card + 1 :=
            Finset.card_insert_le _ _
        _ ≤ k + 1 := by
            have := ih c'
            omega

/-- After the rounds are exhausted (or the loop stopped early) every
remaining live non-source non-finalized node sits at `max_distance`,
provided the fuel covers the number of such nodes at entry. -/
theorem loopAux_final (k : Nat) (c : Calc)
    (hlen : c.node_count ≤ c.nodes.length)
    (hdist : ∀ i, 1 ≤ i → i < c.node_count →
      (getN c i).distance ≤ c.maxDistance)
    (hnf : ((Finset.range c.node_count).filter
      (fun i => 1 ≤ i ∧ (getN c i).shortest_path_known = false)).card ≤ k) :
    ∀ i, 1 ≤ i → i < c.node_count →
      (getN (loopAux k c) i).shortest_path_known = false →
      (getN (loopAux k c) i).distance = c.maxDistance := by
  induction k generalizing c with
  | zero =>
    intro i h1 h2 hspk
    have hmem : i ∈ (Finset.range c.node_count).filter
        (fun i => 1 ≤ i ∧ (getN c i).shortest_path_known = false) := by
      rw [Finset.mem_filter, Finset.mem_range]
      exact ⟨h2, h1, hspk⟩
    have := Finset.card_pos.mpr ⟨i, hmem⟩
    omega
  | succ k ih =>
    intro i h1 h2 hspk
    cases hr : c.round with
    | none =>
      have hstep : loopAux (k + 1) c = c := by simp [loopAux, hr]
      rw [hstep] at hspk ⊢
      have hmin := (round_none_iff c).mp hr
      have hle := selectMin_le c i h1 h2 hspk
      have := hdist i h1 h2
      omega
    | some c' =>
      have hstep : loopAux (k + 1) c = loopAux k c' := by simp [loopAux, hr]
      rw [hstep] at hspk ⊢
      have hne : ¬ c.selectMin.1 = c.maxDistance := by
        intro hh
        rw [(round_none_iff c).mpr hh] at hr
        exact Option.noConfusion hr
      obtain ⟨hmi1, hmi2, hmispk, _⟩ := selectMin_attained c hne
      have hcnt : c'.node_count = c.node_count := (round_fields c c' hr 0).2.2.1
      have hlen' : c'.nodes.length = c.nodes.length := (round_fields c c' hr 0).2.2.2.1
      have hwidth : c'.width = c.width := (round_fields c c' hr 0).1
      have hmaxd : c'.maxDistance = c.maxDistance := by
        rw [Calc.maxDistance, Calc.maxDistance, hwidth]
      have hmifin : (getN c' c.selectMin.2).shortest_path_known = true :=
        ((round_fields c c' hr c.selectMin.2).2.2.2.2.2.2.2.2 rfl (by omega)).1
      have hdist' : ∀ j, 1 ≤ j → j < c'.node_count →
          (getN c' j).distance ≤ c'.maxDistance := by
        intro j hj1 hj2
        rw [hmaxd]
        calc (getN c' j).distance ≤ (getN c j).distance :=
            (round_fields c c' hr j).2.2.2.2.2.2.1
          _ ≤ c.maxDistance := hdist j hj1 (by omega)
      have hnf' : ((Finset.range c'.node_count).filter
          (fun i => 1 ≤ i ∧ (getN c' i).shortest_path_known = false)).card ≤ k := by
        have hmem : c.selectMin.2 ∈ (Finset.range c.node_count).filter
            (fun i => 1 ≤ i ∧ (getN c i).shortest_path_known = false) := by
          rw [Finset.mem_filter, Finset.mem_range]
          exact ⟨hmi2, hmi1, hmispk⟩
        have hsub : (Finset.range c'.node_count).filter
            (fun i => 1 ≤ i ∧ (getN c' i).shortest_path_known = false)
            ⊆ ((Finset.range c.node_count).filter
              (fun i => 1 ≤ i ∧ (getN c i).shortest_path_known = false)).erase
                c.selectMin.2 := by
          intro j hj
          rw [Finset.mem_filter, Finset.mem_range, hcnt] at hj
          rw [Finset.mem_erase, Finset.mem_filter, Finset.mem_range]
          have hjne : j ≠ c.selectMin.2 := by
            intro hh
            rw [hh] at hj
            exact Bool.noConfusion (hmifin.symm.trans hj.2.2)
          have hpres := (round_fields c c' hr j).2.2.2.2.2.2.2.1 hjne
          exact ⟨hjne, hj.1, hj.2.1, hpres.symm.trans hj.2.2⟩
        calc ((Finset.range c'.node_count).filter _).card
            ≤ (((Finset.range c.node_count).filter
                (fun i => 1 ≤ i ∧ (getN c i).shortest_path_known = false)).erase
                  c.selectMin.2).card := Finset.card_le_card hsub
          _ = ((Finset.range c.node_count).filter
                (fun i => 1 ≤ i ∧ (getN c i).shortest_path_known = false)).card - 1 :=
              Finset.card_erase_of_mem hmem
          _ ≤ k := by omega
      have hres := ih c' (by omega) hdist' hnf' i h1 (by omega) hspk
      rw [hmaxd] at hres
      exact hres

/-- C7: `loop()` performs at most `node_count - 1` finalizations; when the
selection scan already finds only `max_distance` it stops immediately with
the state unchanged; and at exit every live non-source node still
non-finalized has distance `max_distance` (and its flag false). -/
theorem C7_loop_bounds (c : Calc) (hlen : c.node_count ≤ c.nodes.length)
    (hdist : ∀ i, 1 ≤ i → i < c.node_count →
      (getN c i).distance ≤ c.maxDistance) :
    (((Finset.range c.node_count).filter
        (fun i => (getN c i).shortest_path_known = false
          ∧ (getN c.loop i).shortest_path_known = true)).card ≤ c.node_count - 1)
    ∧ (∀ i, 1 ≤ i → i < c.node_count →
        (getN c.loop i).shortest_path_known = false →
        (getN c.loop i).distance = c.maxDistance)
    ∧ (c.selectMin.1 = c.maxDistance → c.loop = c) := by
  refine ⟨loopAux_flips (c.node_count - 1) c, ?_, ?_⟩
  · apply loopAux_final (c.node_count - 1) c hlen hdist
    have hsub : (Finset.range c.node_count).filter
        (fun i => 1 ≤ i ∧ (getN c i).shortest_path_known = false)
        ⊆ (Finset.range c.node_count).erase 0 := by
      intro j hj
      rw [Finset.mem_filter, Finset.mem_range] at hj
      rw [Finset.mem_erase, Finset.mem_range]
      exact ⟨by omega, hj.1⟩
    rcases Nat.eq_zero_or_pos c.node_count with h0 | h0
    · have : (Finset.range c.node_count).filter
          (fun i => 1 ≤ i ∧ (getN c i).shortest_path_known = false) = ∅ := by
        rw [h0]
        simp
      rw [this]
      simp
    · calc ((Finset.range c.node_count).filter _).card
          ≤ ((Finset.range c.node_count).erase 0).card := Finset.card_le_card hsub
        _ = c.node_count - 1 := by
            rw [Finset.card_erase_of_mem (by rw [Finset.mem_range]; omega)]
            simp
  · intro hmin
    have hnone : c.round = none := (round_none_iff c).mpr hmin
    show loopAux (c.node_count - 1) c = c
    cases hcc : c.node_count - 1 with
    | zero => rfl
    | succ k => simp [loopAux, hnone]

/-- Witness for C7 on the spec's example scenario. -/
theorem C7_loop_bounds_witness :
    exScen.node_count ≤ exScen.nodes.length
    ∧ (∀ i, 1 ≤ i → i < exScen.node_count →
        (getN exScen.loop i).shortest_path_known = false →
        (getN exScen.loop i).distance = exScen.maxDistance) :=
  ⟨by decide, (C7_loop_bounds exScen (by decide) (by decide)).2.1⟩

/-! ## Graph transport -/

theorem graphEq_maxD {c d : Calc} (h : GraphEq c d) : c.maxDistance = d.maxDistance := by
  rw [Calc.maxDistance, Calc.maxDistance, h.1]

theorem graphEq_addW {c d : Calc} (h : GraphEq c d) (a b : Nat) :
    c.addW a b = d.addW a b := by
  rw [Calc.addW, Calc.addW, h.1]

theorem graphEq_edges {c d : Calc} (h : GraphEq c d) (u v : Nat) :
    edgeCostsBetween c u v = edgeCostsBetween d u v := by
  rw [edgeCostsBetween, edgeCostsBetween, (h.2.2 0).1, (h.2.2 u).2, (h.2.2 v).2,
    (h.2.2 v).1]

theorem graphEq_wt {c d : Calc} (h : GraphEq c d) (u v : Nat) :
    wt c u v = wt d u v := by
  rw [wt, wt, graphEq_edges h]

theorem graphEq_chainOK {c d : Calc} (h : GraphEq c d) (l : List Nat) :
    chainOK c l = chainOK d l := by
  induction l with
  | nil => rfl
  | cons u rest ih =>
    cases rest with
    | nil => simp [chainOK, h.2.1]
    | cons v rest' =>
      show (decide (u < c.node_count) && decide (edgeCostsBetween c u v ≠ [])
          && chainOK c (v :: rest'))
        = (decide (u < d.node_count) && decide (edgeCostsBetween d u v ≠ [])
          && chainOK d (v :: rest'))
      rw [h.2.1, graphEq_edges h, ih]

theorem graphEq_chainCost {c d : Calc} (h : GraphEq c d) (l : List Nat) :
    chainCost c l = chainCost d l := by
  induction l with
  | nil => rfl
  | cons u rest ih =>
    cases rest with
    | nil => rfl
    | cons v rest' =>
      show wt c u v + chainCost c (v :: rest') = wt d u v + chainCost d (v :: rest')
      rw [graphEq_wt h, ih]

theorem graphEq_path {c d : Calc} (h : GraphEq c d) (a b : Nat) (l : List Nat) :
    IsPathFT c a b l ↔ IsPathFT d a b l := by
  rw [IsPathFT, IsPathFT, graphEq_chainOK h]

theorem graphEq_reachable {c d : Calc} (h : GraphEq c d) (i : Nat) :
    Reachable c i ↔ Reachable d i := by
  rw [Reachable, Reachable]
  exact exists_congr (fun l => graphEq_path h 0 i l)

theorem graphEq_isDelta {c d : Calc} (h : GraphEq c d) (i x : Nat) :
    IsDelta c i x ↔ IsDelta d i x := by
  rw [IsDelta, IsDelta]
  constructor
  · rintro ⟨⟨l, hl, hc⟩, hmin⟩
    exact ⟨⟨l, (graphEq_path h 0 i l).mp hl, (graphEq_chainCost h l).symm.trans hc⟩,
      fun l hl => (graphEq_chainCost h l) ▸ hmin l ((graphEq_path h 0 i l).mpr hl)⟩
  · rintro ⟨⟨l, hl, hc⟩, hmin⟩
    exact ⟨⟨l, (graphEq_path h 0 i l).mpr hl, (graphEq_chainCost h l).trans hc⟩,
      fun l hl => (graphEq_chainCost h l).symm ▸ hmin l ((graphEq_path h 0 i l).mp hl)⟩

theorem graphEq_costSum {c d : Calc} (h : GraphEq c d) (i : Nat) :
    costSum c i = costSum d i := by
  rw [costSum, costSum, (h.2.2 i).2]

theorem graphEq_srcPart {c d : Calc} (h : GraphEq c d) (i : Nat) :
    srcPart c i = srcPart d i := by
  rw [srcPart, srcPart, (h.2.2 i).2, (h.2.2 0).1]

theorem graphEq_nonSrcPart {c d : Calc} (h : GraphEq c d) (i : Nat) :
    nonSrcPart c i = nonSrcPart d i := by
  rw [nonSrcPart, nonSrcPart, (h.2.2 i).2, (h.2.2 0).1]

theorem graphEq_innerTotal {c d : Calc} (h : GraphEq c d) :
    innerTotal c = innerTotal d := by
  rw [innerTotal, innerTotal, h.2.1]
  exact Finset.sum_congr rfl (fun i _ => graphEq_costSum h i)

theorem graphEq_noPar {c d : Calc} (h : GraphEq c d) :
    NoParallelSource c ↔ NoParallelSource d := by
  rw [NoParallelSource, NoParallelSource, h.2.1]
  refine forall_congr' (fun i => ?_)
  rw [(h.2.2 i).2, (h.2.2 0).1]

theorem graphEq_refl (c : Calc) : GraphEq c c := ⟨rfl, rfl, fun _ => ⟨rfl, rfl⟩⟩

theorem graphEq_trans {a b c : Calc} (h1 : GraphEq a b) (h2 : GraphEq b c) :
    GraphEq a c :=
  ⟨h1.1.trans h2.1, h1.2.1.trans h2.2.1,
    fun k => ⟨(h1.2.2 k).1.trans (h2.2.2 k).1, (h1.2.2 k).2.trans (h2.2.2 k).2⟩⟩

theorem graphEq_setup (c : Calc) : GraphEq c c.setup := by
  refine ⟨rfl, rfl, fun k => ?_⟩
  rw [setup_getN c k]
  by_cases hk : k < c.nodes.length
  · rw [if_pos hk, setupNode]
    by_cases h0 : k = 0
    · rw [if_pos h0]
      exact ⟨rfl, rfl⟩
    · rw [if_neg h0]
      by_cases hcnt : k < c.node_count
      · rw [if_pos hcnt]
        cases seedDist (getN c 0).id c.maxDistance (getN c k).edges with
        | none => exact ⟨rfl, rfl⟩
        | some cst => exact ⟨rfl, rfl⟩
      · rw [if_neg hcnt]
        exact ⟨rfl, rfl⟩
  · rw [if_neg hk]
    have : getN c k = dnode := getD_ge_length c.nodes k (by omega)
    rw [this]
    exact ⟨rfl, rfl⟩

theorem graphEq_round {c c' : Calc} (h : c.round = some c') : GraphEq c c' :=
  ⟨(round_fields c c' h 0).1.symm, (round_fields c c' h 0).2.2.1.symm,
    fun k => ⟨(round_fields c c' h k).2.2.2.2.1.symm,
      (round_fields c c' h k).2.2.2.2.2.1.symm⟩⟩

theorem graphEq_loopAux (k : Nat) (c : Calc) : GraphEq c (loopAux k c) := by
  induction k generalizing c with
  | zero => exact graphEq_refl c
  | succ k ih =>
    cases hr : c.round with
    | none =>
      have : loopAux (k + 1) c = c := by simp [loopAux, hr]
      rw [this]
      exact graphEq_refl c
    | some c' =>
      have : loopAux (k + 1) c = loopAux k c' := by simp [loopAux, hr]
      rw [this]
      exact graphEq_trans (graphEq_round hr) (ih c')

/-! ## Minimum of a cost list -/

theorem foldl_min_spec (as : List Nat) (a : Nat) :
    (as.foldl min a ∈ a :: as) ∧ (as.foldl min a ≤ a)
      ∧ (∀ x ∈ as, as.foldl min a ≤ x) := by
  induction as generalizing a with
  | nil =>
    refine ⟨by simp, le_refl _, ?_⟩
    intro x hx
    exact absurd hx (by simp)
  | cons b bs ih =>
    have hh := ih (min a b)
    have hfold : (b :: bs).foldl min a = bs.foldl min (min a b) := rfl
    refine ⟨?_, ?_, ?_⟩
    · rw [hfold]
      rcases List.mem_cons.mp hh.1 with hm | hm
      · rcases Nat.le_total a b with hab | hab
        · rw [hm, Nat.min_eq_left hab]
          simp
        · rw [hm, Nat.min_eq_right hab]
          simp
      · simp [hm]
    · rw [hfold]
      calc bs.foldl min (min a b) ≤ min a b := hh.2.1
        _ ≤ a := Nat.min_le_left a b
    · intro x hx
      rw [hfold]
      rcases List.mem_cons.mp hx with rfl | hm
      · calc bs.foldl min (min a x) ≤ min a x := hh.2.1
          _ ≤ x := Nat.min_le_right a x
      · exact hh.2.2 x hm

theorem minOfList_mem (l : List Nat) (h : l ≠ []) : minOfList l ∈ l := by
  cases l with
  | nil => exact absurd rfl h
  | cons a as => exact (foldl_min_spec as a).1

theorem minOfList_le (l : List Nat) (x : Nat) (h : x ∈ l) : minOfList l ≤ x := by
  cases l with
  | nil => exact absurd h (by simp)
  | cons a as =>
    rcases List.mem_cons.mp h with rfl | hm
    · exact (foldl_min_spec as x).2.1
    · exact (foldl_min_spec as a).2.2 x hm

/-! ## Structural facts about chains -/

theorem chainOK_cons_cons (c : Calc) (u v : Nat) (rest : List Nat) :
    chainOK c (u :: v :: rest) = true
      ↔ u < c.node_count ∧ edgeCostsBetween c u v ≠ [] ∧ chainOK c (v :: rest) = true := by
  show (decide (u < c.node_count) && decide (edgeCostsBetween c u v ≠ [])
      && chainOK c (v :: rest)) = true ↔ _
  simp [Bool.and_eq_true, and_assoc]

theorem chainOK_single (c : Calc) (v : Nat) :
    chainOK c [v] = true ↔ v < c.node_count := by
  show decide (v < c.node_count) = true ↔ _
  simp

theorem chainOK_head_lt (c : Calc) (x : Nat) (t : List Nat)
    (h : chainOK c (x :: t) = true) : x < c.node_count := by
  cases t with
  | nil => exact (chainOK_single c x).mp h
  | cons v rest => exact ((chainOK_cons_cons c x v rest).mp h).1

theorem chainOK_mem_lt (c : Calc) : ∀ l, chainOK c l = true →
    ∀ x ∈ l, x < c.node_count := by
  intro l
  induction l with
  | nil => intro _ x hx; exact absurd hx (by simp)
  | cons a rest ih =>
    intro h x hx
    rcases List.mem_cons.mp hx with rfl | hm
    · exact chainOK_head_lt c x rest h
    · cases rest with
      | nil => exact absurd hm (by simp)
      | cons v rest' =>
        exact ih ((chainOK_cons_cons c a v rest').mp h).2.2 x hm

theorem chainCost_cons_cons (c : Calc) (u v : Nat) (rest : List Nat) :
    chainCost c (u :: v :: rest) = wt c u v + chainCost c (v :: rest) := rfl

theorem chainOK_append (c : Calc) :
    ∀ (s : List Nat) (x : Nat) (t : List Nat),
      (chainOK c (s ++ x :: t) = true
        ↔ chainOK c (s ++ [x]) = true ∧ chainOK c (x :: t) = true) := by
  intro s
  induction s with
  | nil =>
    intro x t
    constructor
    · intro h
      exact ⟨(chainOK_single c x).mpr (chainOK_head_lt c x t h), h⟩
    · intro h
      exact h.2
  | cons a s ih =>
    intro x t
    cases s with
    | nil =>
      constructor
      · intro h
        have hh := (chainOK_cons_cons c a x t).mp h
        exact ⟨(chainOK_cons_cons c a x []).mpr
          ⟨hh.1, hh.2.1, (chainOK_single c x).mpr (chainOK_head_lt c x t hh.2.2)⟩,
          hh.2.2⟩
      · intro h
        have hh := (chainOK_cons_cons c a x []).mp h.1
        exact (chainOK_cons_cons c a x t).mpr ⟨hh.1, hh.2.1, h.2⟩
    | cons b s' =>
      constructor
      · intro h
        have hh := (chainOK_cons_cons c a b (s' ++ x :: t)).mp h
        have hih := (ih x t).mp hh.2.2
        exact ⟨(chainOK_cons_cons c a b (s' ++ [x])).mpr ⟨hh.1, hh.2.1, hih.1⟩, hih.2⟩
      · intro h
        have hh := (chainOK_cons_cons c a b (s' ++ [x])).mp h.1
        exact (chainOK_cons_cons c a b (s' ++ x :: t)).mpr
          ⟨hh.1, hh.2.1, (ih x t).mpr ⟨hh.2.2, h.2⟩⟩

theorem chainCost_append (c : Calc) :
    ∀ (s : List Nat) (x : Nat) (t : List Nat),
      chainCost c (s ++ x :: t) = chainCost c (s ++ [x]) + chainCost c (x :: t) := by
  intro s
  induction s with
  | nil =>
    intro x t
    show chainCost c (x :: t) = chainCost c [x] + chainCost c (x :: t)
    show chainCost c (x :: t) = 0 + chainCost c (x :: t)
    omega
  | cons a s ih =>
    intro x t
    cases s with
    | nil =>
      show chainCost c (a :: x :: t) = chainCost c (a :: [x]) + chainCost c (x :: t)
      rw [chainCost_cons_cons c a x t, chainCost_cons_cons c a x []]
      show wt c a x + chainCost c (x :: t) = wt c a x + 0 + chainCost c (x :: t)
      omega
    | cons b s' =>
      show chainCost c (a :: b :: (s' ++ x :: t))
        = chainCost c (a :: b :: (s' ++ [x])) + chainCost c (x :: t)
      rw [chainCost_cons_cons c a b (s' ++ x :: t),
        chainCost_cons_cons c a b (s' ++ [x])]
      have hih : chainCost c (b :: (s' ++ x :: t))
          = chainCost c (b :: (s' ++ [x])) + chainCost c (x :: t) := ih x t
      omega

theorem head?_append_cons (s : List Nat) (x : Nat) (t t' : List Nat) :
    (s ++ x :: t).head? = (s ++ x :: t').head? := by
  cases s <;> rfl

theorem chainOK_snoc (c : Calc) :
    ∀ (l : List Nat) (u v : Nat), chainOK c l = true → l.getLast? = some u →
      edgeCostsBetween c u v ≠ [] → v < c.node_count →
      chainOK c (l ++ [v]) = true
        ∧ chainCost c (l ++ [v]) = chainCost c l + wt c u v := by
  intro l
  induction l with
  | nil =>
    intro u v _ hlast
    exact absurd hlast (by simp)
  | cons a rest ih =>
    intro u v hok hlast hedge hv
    cases rest with
    | nil =>
      have hu : a = u := by simpa using hlast
      subst hu
      refine ⟨(chainOK_cons_cons c a v []).mpr
        ⟨(chainOK_single c a).mp hok, hedge, (chainOK_single c v).mpr hv⟩, ?_⟩
      show wt c a v + 0 = 0 + wt c a v
      omega
    | cons b rest' =>
      have hok' := (chainOK_cons_cons c a b rest').mp hok
      have hlast' : (b :: rest').getLast? = some u := by
        rw [← hlast]
        rfl
      have hih := ih u v hok'.2.2 hlast' hedge hv
      refine ⟨(chainOK_cons_cons c a b (rest' ++ [v])).mpr
        ⟨hok'.1, hok'.2.1, hih.1⟩, ?_⟩
      show wt c a b + chainCost c (b :: (rest' ++ [v]))
        = wt c a b + chainCost c (b :: rest') + wt c u v
      have := hih.2
      rw [show (b :: rest') ++ [v] = b :: (rest' ++ [v]) from rfl] at this
      omega

theorem path_extend (c : Calc) (u v : Nat) (l : List Nat)
    (hp : IsPathFT c 0 u l) (hedge : edgeCostsBetween c u v ≠ [])
    (hv : v < c.node_count) :
    IsPathFT c 0 v (l ++ [v])
      ∧ chainCost c (l ++ [v]) = chainCost c l + wt c u v := by
  obtain ⟨hok, hhead, hlast⟩ := hp
  have hs := chainOK_snoc c l u v hok hlast hedge hv
  have hnil : l ≠ [] := by
    intro h
    rw [h] at hok
    exact Bool.noConfusion hok
  obtain ⟨a, t, rfl⟩ : ∃ a t, l = a :: t := by
    cases l with
    | nil => exact absurd rfl hnil
    | cons a t => exact ⟨a, t, rfl⟩
  refine ⟨⟨hs.1, ?_, ?_⟩, hs.2⟩
  · rw [← hhead]
    rfl
  · rw [show (a :: t) ++ [v] = a :: (t ++ [v]) from rfl]
    rw [show a :: (t ++ [v]) = (a :: t) ++ v :: [] from rfl]
    rw [List.getLast?_append_cons]
    rfl

theorem path_singleton (c : Calc) (h : 1 ≤ c.node_count) : IsPathFT c 0 0 [0] :=
  ⟨(chainOK_single c 0).mpr (by omega), rfl, rfl⟩

theorem isDelta_source (c : Calc) (h : 1 ≤ c.node_count) : IsDelta c 0 0 :=
  ⟨⟨[0], path_singleton c h, rfl⟩, fun _ _ => Nat.zero_le _⟩

theorem isDelta_unique (c : Calc) (i d d' : Nat)
    (h1 : IsDelta c i d) (h2 : IsDelta c i d') : d = d' := by
  obtain ⟨⟨l1, hp1, hc1⟩, hm1⟩ := h1
  obtain ⟨⟨l2, hp2, hc2⟩, hm2⟩ := h2
  have ha := hm1 l2 hp2
  have hb := hm2 l1 hp1
  omega

/-! ## Cycle removal and cost bounds for paths -/

theorem count_two_split (x : Nat) :
    ∀ l : List Nat, 2 ≤ l.count x → ∃ s t, l = s ++ x :: t ∧ x ∈ t := by
  intro l
  induction l with
  | nil => intro h; simp at h
  | cons a as ih =>
    intro h
    by_cases hax : a = x
    · subst hax
      have h1 : as.count a ≥ 1 := by
        have := List.count_cons_self a as
        omega
      have hmem : a ∈ as := List.count_pos_iff.mp (by omega)
      exact ⟨[], as, rfl, hmem⟩
    · have h1 : as.count x ≥ 2 := by
        have := List.count_cons_of_ne (fun hh => hax hh.symm) as (a := x) (b := a)
        omega
      obtain ⟨s, t, rfl, hmem⟩ := ih h1
      exact ⟨a :: s, t, rfl, hmem⟩

theorem path_dedup (c : Calc) (a b : Nat) :
    ∀ n l, l.length ≤ n → IsPathFT c a b l →
      ∃ l', IsPathFT c a b l' ∧ l'.Nodup ∧ chainCost c l' ≤ chainCost c l := by
  intro n
  induction n with
  | zero =>
    intro l hlen hp
    have hnil : l = [] := List.length_eq_zero.mp (Nat.le_antisymm hlen (Nat.zero_le _))
    rw [hnil] at hp
    exact absurd hp.1 (by simp [chainOK])
  | succ n ih =>
    intro l hlen hp
    by_cases hnd : l.Nodup
    · exact ⟨l, hp, hnd, le_refl _⟩
    · have hdup : ∃ x, 2 ≤ l.count x := by
        by_contra hc
        push_neg at hc
        exact hnd (List.nodup_iff_count_le_one.mpr (fun y => by have := hc y; omega))
      obtain ⟨x, hx⟩ := hdup
      obtain ⟨s, t, rfl, hxt⟩ := count_two_split x l hx
      obtain ⟨u, v, rfl⟩ : ∃ u v, t = u ++ x :: v := by
        obtain ⟨u, v, h⟩ := List.append_of_mem hxt
        exact ⟨u, v, h⟩
      obtain ⟨hok, hhead, hlast⟩ := hp
      have h1 := (chainOK_append c s x (u ++ x :: v)).mp hok
      have h2 : chainOK c ((x :: u) ++ x :: v) = true := h1.2
      have h3 := (chainOK_append c (x :: u) x v).mp h2
      have hok' : chainOK c (s ++ x :: v) = true :=
        (chainOK_append c s x v).mpr ⟨h1.1, h3.2⟩
      have hhead' : (s ++ x :: v).head? = some a := by
        rw [head?_append_cons s x v (u ++ x :: v)]
        exact hhead
      have hlast1 : (x :: (u ++ x :: v)).getLast? = some b := by
        rw [← List.getLast?_append_cons s x (u ++ x :: v)]
        exact hlast
      have hlast2 : ((x :: u) ++ x :: v).getLast? = some b := hlast1
      have hlast' : (s ++ x :: v).getLast? = some b := by
        rw [List.getLast?_append_cons s x v, ← List.getLast?_append_cons (x :: u) x v]
        exact hlast2
      have hlen' : (s ++ x :: v).length ≤ n := by
        have hl1 : (s ++ x :: (u ++ x :: v)).length
            = s.length + u.length + v.length + 2 := by
          simp [List.length_append]
          omega
        have hl2 : (s ++ x :: v).length = s.length + v.length + 1 := by
          simp [List.length_append]
          omega
        omega
      obtain ⟨l', hp', hnd', hle'⟩ := ih (s ++ x :: v) hlen' ⟨hok', hhead', hlast'⟩
      refine ⟨l', hp', hnd', ?_⟩
      have hc1 : chainCost c (s ++ x :: (u ++ x :: v))
          = chainCost c (s ++ [x]) + chainCost c (x :: (u ++ x :: v)) :=
        chainCost_append c s x (u ++ x :: v)
      have hc2 : chainCost c ((x :: u) ++ x :: v)
          = chainCost c ((x :: u) ++ [x]) + chainCost c (x :: v) :=
        chainCost_append c (x :: u) x v
      have hc2' : chainCost c (x :: (u ++ x :: v))
          = chainCost c ((x :: u) ++ [x]) + chainCost c (x :: v) := hc2
      have hc3 : chainCost c (s ++ x :: v)
          = chainCost c (s ++ [x]) + chainCost c (x :: v) :=
        chainCost_append c s x v
      omega

/-! ### Sums over filtered edge lists -/

theorem sum_map_filter_le (l : List (Nat × Nat)) (p : Nat × Nat → Bool) :
    ((l.filter p).map Prod.snd).sum ≤ (l.map Prod.snd).sum := by
  induction l with
  | nil => simp
  | cons e es ih =>
    cases hp : p e
    · rw [List.filter_cons, hp]
      simp only [Bool.false_eq_true, if_false]
      calc ((es.filter p).map Prod.snd).sum ≤ (es.map Prod.snd).sum := ih
        _ ≤ ((e :: es).map Prod.snd).sum := by simp
    · rw [List.filter_cons, hp]
      simp only [if_true]
      show e.2 + ((es.filter p).map Prod.snd).sum ≤ e.2 + (es.map Prod.snd).sum
      omega

theorem sum_map_filter_mono (l : List (Nat × Nat)) (p q : Nat × Nat → Bool)
    (h : ∀ e, p e = true → q e = true) :
    ((l.filter p).map Prod.snd).sum ≤ ((l.filter q).map Prod.snd).sum := by
  induction l with
  | nil => simp
  | cons e es ih =>
    cases hp : p e
    · rw [List.filter_cons, hp]
      simp only [Bool.false_eq_true, if_false]
      cases hq : q e
      · rw [List.filter_cons, hq]
        simp only [Bool.false_eq_true, if_false]
        exact ih
      · rw [List.filter_cons, hq]
        simp only [if_true]
        show _ ≤ e.2 + ((es.filter q).map Prod.snd).sum
        omega
    · rw [List.filter_cons, hp, List.filter_cons, h e hp]
      simp only [if_true]
      show e.2 + ((es.filter p).map Prod.snd).sum
        ≤ e.2 + ((es.filter q).map Prod.snd).sum
      omega

theorem filter_partition_sum (l : List (Nat × Nat)) (y : Nat) :
    ((l.filter (fun e => e.1 = y)).map Prod.snd).sum
      + ((l.filter (fun e => ¬ e.1 = y)).map Prod.snd).sum
    = (l.map Prod.snd).sum := by
  induction l with
  | nil => simp
  | cons e es ih =>
    by_cases he : e.1 = y
    · rw [List.filter_cons_of_pos (by simpa using he),
        List.filter_cons_of_neg (by simpa using he)]
      show e.2 + ((es.filter _).map Prod.snd).sum + _ = e.2 + (es.map Prod.snd).sum
      omega
    · rw [List.filter_cons_of_neg (by simpa using he),
        List.filter_cons_of_pos (by simpa using he)]
      show _ + (e.2 + ((es.filter _).map Prod.snd).sum) = e.2 + (es.map Prod.snd).sum
      omega

theorem srcPart_add_nonSrcPart (c : Calc) (i : Nat) :
    srcPart c i + nonSrcPart c i = costSum c i :=
  filter_partition_sum (getN c i).edges (getN c 0).id

theorem srcPart_le_costSum (c : Calc) (i : Nat) : srcPart c i ≤ costSum c i :=
  sum_map_filter_le (getN c i).edges _

theorem nonSrcPart_le_costSum (c : Calc) (i : Nat) : nonSrcPart c i ≤ costSum c i :=
  sum_map_filter_le (getN c i).edges _

theorem costSum_le_inner (c : Calc) (i : Nat) (h1 : 1 ≤ i) (h2 : i < c.node_count) :
    costSum c i ≤ innerTotal c :=
  Finset.single_le_sum (fun j _ => Nat.zero_le (costSum c j))
    (Finset.mem_Ico.mpr ⟨h1, h2⟩)

theorem cost_mem_le_costSum (c : Calc) (i : Nat) (e : Nat × Nat)
    (h : e ∈ (getN c i).edges) : e.2 ≤ costSum c i :=
  List.le_sum_of_mem (List.mem_map_of_mem Prod.snd h)

theorem cost_mem_le_nonSrcPart (c : Calc) (i : Nat) (e : Nat × Nat)
    (h : e ∈ (getN c i).edges) (hne : ¬ e.1 = (getN c 0).id) :
    e.2 ≤ nonSrcPart c i := by
  refine List.le_sum_of_mem (List.mem_map_of_mem Prod.snd ?_)
  rw [List.mem_filter]
  exact ⟨h, by simpa using hne⟩

theorem wt_le_srcPart (c : Calc) (v : Nat) (h : edgeCostsBetween c 0 v ≠ []) :
    wt c 0 v ≤ srcPart c v := by
  have hm := minOfList_mem _ h
  have hlist : edgeCostsBetween c 0 v
      = ((getN c v).edges.filter (fun e => e.1 = (getN c 0).id)).map Prod.snd := by
    rw [edgeCostsBetween, if_pos rfl]
  rw [wt] at *
  rw [hlist] at hm
  exact List.le_sum_of_mem hm

theorem wt_le_nonSrcPart (c : Calc) (u v : Nat) (hu : ¬ u = 0)
    (hne : (getN c v).id ≠ (getN c 0).id) (h : edgeCostsBetween c u v ≠ []) :
    wt c u v ≤ nonSrcPart c u := by
  have hm := minOfList_mem _ h
  have hlist : edgeCostsBetween c u v
      = ((getN c u).edges.filter (fun e => e.1 = (getN c v).id)).map Prod.snd := by
    rw [edgeCostsBetween, if_neg hu]
  rw [hlist] at hm
  rw [wt, hlist]
  calc minOfList (((getN c u).edges.filter (fun e => e.1 = (getN c v).id)).map Prod.snd)
      ≤ (((getN c u).edges.filter (fun e => e.1 = (getN c v).id)).map Prod.snd).sum :=
        List.le_sum_of_mem hm
    _ ≤ nonSrcPart c u := by
        refine sum_map_filter_mono _ _ _ (fun e he => ?_)
        simp only [decide_eq_true_iff] at he ⊢
        rw [he]
        exact hne

theorem sum_nodup_le_inner (c : Calc) (L : List Nat) (hnd : L.Nodup)
    (hm : ∀ x ∈ L, 1 ≤ x ∧ x < c.node_count) :
    (L.map (fun x => costSum c x)).sum ≤ innerTotal c := by
  rw [← List.sum_toFinset _ hnd]
  refine Finset.sum_le_sum_of_subset ?_
  intro x hx
  rw [List.mem_toFinset] at hx
  exact Finset.mem_Ico.mpr ⟨(hm x hx).1, (hm x hx).2⟩

theorem chain_tail_bound (c : Calc)
    (hids : ∀ i j, i < j → j < c.node_count → (getN c i).id ≠ (getN c j).id) :
    ∀ l, chainOK c l = true → (∀ x ∈ l, 1 ≤ x) →
      chainCost c l ≤ (l.dropLast.map (fun x => nonSrcPart c x)).sum := by
  intro l
  induction l with
  | nil => intro _ _; simp [chainCost]
  | cons u rest ih =>
    intro hok hge
    cases rest with
    | nil => simp [chainCost]
    | cons v rest' =>
      have hh := (chainOK_cons_cons c u v rest').mp hok
      have hv : v < c.node_count := chainOK_head_lt c v rest' hh.2.2
      have hv1 : 1 ≤ v := hge v (by simp)
      have hu1 : 1 ≤ u := hge u (by simp)
      have hwt : wt c u v ≤ nonSrcPart c u := by
        refine wt_le_nonSrcPart c u v (by omega) ?_ hh.2.1
        exact fun hcontra => (hids 0 v (by omega) hv) hcontra.symm
      have hih := ih hh.2.2 (fun x hx => hge x (by simp [hx]))
      rw [chainCost_cons_cons, List.dropLast_cons₂, List.map_cons, List.sum_cons]
      omega

theorem path_cost_bound (c : Calc)
    (hids : ∀ i j, i < j → j < c.node_count → (getN c i).id ≠ (getN c j).id)
    (l : List Nat) (i : Nat) (hp : IsPathFT c 0 i l) (hnd : l.Nodup) :
    chainCost c l ≤ innerTotal c := by
  obtain ⟨hok, hhead, hlast⟩ := hp
  obtain ⟨h0, rest, rfl⟩ : ∃ h0 rest, l = h0 :: rest := by
    cases l with
    | nil => exact absurd hhead (by simp)
    | cons h0 rest => exact ⟨h0, rest, rfl⟩
  have hz : h0 = 0 := by simpa using hhead
  subst hz
  cases rest with
  | nil => simp [chainCost]
  | cons v rest' =>
    have hh := (chainOK_cons_cons c 0 v rest').mp hok
    have hnd' : (v :: rest').Nodup ∧ (0 : Nat) ∉ v :: rest' := by
      rw [List.nodup_cons] at hnd
      exact ⟨hnd.2, hnd.1⟩
    have hge : ∀ x ∈ v :: rest', 1 ≤ x := by
      intro x hx
      have : x ≠ 0 := fun hz => hnd'.2 (hz ▸ hx)
      omega
    have hv : v < c.node_count := chainOK_head_lt c v rest' hh.2.2
    have hv1 : 1 ≤ v := hge v (by simp)
    have hwt := wt_le_srcPart c v hh.2.1
    have htail := chain_tail_bound c hids (v :: rest') hh.2.2 hge
    rw [chainCost_cons_cons]
    cases rest' with
    | nil =>
      have hcs := srcPart_le_costSum c v
      have hci := costSum_le_inner c v hv1 hv
      have : chainCost c [v] = 0 := rfl
      simp only [List.dropLast_single, List.map_nil, List.sum_nil] at htail
      omega
    | cons w rest'' =>
      rw [List.dropLast_cons₂, List.map_cons, List.sum_cons] at htail
      have hmono : ((w :: rest'').dropLast.map (fun x => nonSrcPart c x)).sum
          ≤ ((w :: rest'').dropLast.map (fun x => costSum c x)).sum :=
        List.sum_le_sum (fun x _ => nonSrcPart_le_costSum c x)
      have hsub : ((v :: (w :: rest'').dropLast).map (fun x => costSum c x)).sum
          ≤ innerTotal c := by
        refine sum_nodup_le_inner c _ ?_ ?_
        · have hsubl : (v :: (w :: rest'').dropLast).Sublist (v :: w :: rest'') :=
            List.Sublist.cons₂ v (List.dropLast_sublist (w :: rest''))
          exact hnd'.1.sublist hsubl
        · intro x hx
          rcases List.mem_cons.mp hx with rfl | hx'
          · exact ⟨hv1, hv⟩
          · have hxm : x ∈ w :: rest'' :=
              (List.dropLast_sublist (w :: rest'')).subset hx'
            refine ⟨hge x (by simp [hxm]), ?_⟩
            exact chainOK_mem_lt c (v :: w :: rest'') hh.2.2 x (by simp [hxm])
      rw [List.map_cons, List.sum_cons] at hsub
      have hpart := srcPart_add_nonSrcPart c v
      omega

theorem isDelta_le_inner (c : Calc)
    (hids : ∀ i j, i < j → j < c.node_count → (getN c i).id ≠ (getN c j).id)
    (i d : Nat) (h : IsDelta c i d) : d ≤ innerTotal c := by
  obtain ⟨⟨l, hp, hc⟩, hmin⟩ := h
  obtain ⟨l', hp', hnd', _⟩ := path_dedup c 0 i l.length l (le_refl _) hp
  calc d ≤ chainCost c l' := hmin l' hp'
    _ ≤ innerTotal c := path_cost_bound c hids l' i hp' hnd'

/-! ## The net effect of relaxing one node's edges -/

theorem ids_inj (c : Calc)
    (hids : ∀ i j, i < j → j < c.node_count → (getN c i).id ≠ (getN c j).id)
    (i j : Nat) (hi : i < c.node_count) (hj : j < c.node_count)
    (h : (getN c i).id = (getN c j).id) : i = j := by
  rcases Nat.lt_trichotomy i j with hlt | heq | hgt
  · exact absurd h (hids i j hlt hj)
  · exact heq
  · exact absurd h.symm (hids j i hgt hi)

theorem relaxedDist_le_init (dA tid : Nat) :
    ∀ (es : List (Nat × Nat)) (d0 : Nat), relaxedDist dA tid es d0 ≤ d0 := by
  intro es
  induction es with
  | nil => intro d0; exact le_refl _
  | cons e es ih =>
    intro d0
    show relaxedDist dA tid es (if e.1 = tid ∧ dA + e.2 < d0 then dA + e.2 else d0) ≤ d0
    by_cases h : e.1 = tid ∧ dA + e.2 < d0
    · rw [if_pos h]
      calc relaxedDist dA tid es (dA + e.2) ≤ dA + e.2 := ih _
        _ ≤ d0 := le_of_lt h.2
    · rw [if_neg h]
      exact ih d0

theorem relaxedDist_le_entry (dA tid : Nat) :
    ∀ (es : List (Nat × Nat)) (d0 : Nat) (e : Nat × Nat), e ∈ es → e.1 = tid →
      relaxedDist dA tid es d0 ≤ dA + e.2 := by
  intro es
  induction es with
  | nil => intro d0 e he; exact absurd he (by simp)
  | cons e' es ih =>
    intro d0 e he htid
    rcases List.mem_cons.mp he with rfl | hm
    · show relaxedDist dA tid es (if e.1 = tid ∧ dA + e.2 < d0 then dA + e.2 else d0)
        ≤ dA + e.2
      by_cases h : e.1 = tid ∧ dA + e.2 < d0
      · rw [if_pos h]
        exact relaxedDist_le_init dA tid es _
      · rw [if_neg h]
        have : ¬ dA + e.2 < d0 := fun hc => h ⟨htid, hc⟩
        calc relaxedDist dA tid es d0 ≤ d0 := relaxedDist_le_init dA tid es d0
          _ ≤ dA + e.2 := by omega
    · exact ih _ e hm htid

theorem relaxedDist_cases (dA tid : Nat) :
    ∀ (es : List (Nat × Nat)) (d0 : Nat),
      relaxedDist dA tid es d0 = d0
      ∨ ∃ e ∈ es, e.1 = tid ∧ relaxedDist dA tid es d0 = dA + e.2 := by
  intro es
  induction es with
  | nil => intro d0; exact Or.inl rfl
  | cons e' es ih =>
    intro d0
    have hconv : relaxedDist dA tid (e' :: es) d0
        = relaxedDist dA tid es (if e'.1 = tid ∧ dA + e'.2 < d0 then dA + e'.2 else d0) :=
      rfl
    by_cases h : e'.1 = tid ∧ dA + e'.2 < d0
    · rw [if_pos h] at hconv
      rcases ih (dA + e'.2) with heq | ⟨e, hm, ht, heq⟩
      · exact Or.inr ⟨e', by simp, h.1, hconv.trans heq⟩
      · exact Or.inr ⟨e, by simp [hm], ht, hconv.trans heq⟩
    · rw [if_neg h] at hconv
      rcases ih d0 with heq | ⟨e, hm, ht, heq⟩
      · exact Or.inl (hconv.trans heq)
      · exact Or.inr ⟨e, by simp [hm], ht, hconv.trans heq⟩

theorem relaxedDist_self (dA tid : Nat) (es : List (Nat × Nat)) :
    relaxedDist dA tid es dA = dA := by
  rcases relaxedDist_cases dA tid es dA with h | ⟨e, _, _, heq⟩
  · exact h
  · have h1 := relaxedDist_le_init dA tid es dA
    omega

/-- The relaxation fold computes exactly the minimum of the initial value
and the best improvement through the matching entries. -/
theorem relaxedDist_min_wt (dA tid : Nat) (es : List (Nat × Nat)) (d0 : Nat)
    (hne : (es.filter (fun e => e.1 = tid)).map Prod.snd ≠ []) :
    relaxedDist dA tid es d0
      = min d0 (dA + minOfList ((es.filter (fun e => e.1 = tid)).map Prod.snd)) := by
  set M := (es.filter (fun e => e.1 = tid)).map Prod.snd with hM
  refine Nat.le_antisymm ?_ ?_
  · refine le_min (relaxedDist_le_init dA tid es d0) ?_
    have hmem := minOfList_mem M hne
    rw [hM, List.mem_map] at hmem
    obtain ⟨e, hef, hsnd⟩ := hmem
    rw [List.mem_filter] at hef
    have htid : e.1 = tid := by simpa using hef.2
    calc relaxedDist dA tid es d0 ≤ dA + e.2 :=
        relaxedDist_le_entry dA tid es d0 e hef.1 htid
      _ = dA + minOfList M := by rw [hsnd]
  · rcases relaxedDist_cases dA tid es d0 with heq | ⟨e, hm, ht, heq⟩
    · rw [heq]
      exact Nat.min_le_left _ _
    · rw [heq]
      have hem : e.2 ∈ M := by
        rw [hM, List.mem_map]
        exact ⟨e, List.mem_filter.mpr ⟨hm, by simpa using ht⟩, rfl⟩
      have := minOfList_le M e.2 hem
      calc min d0 (dA + minOfList M) ≤ dA + minOfList M := Nat.min_le_right _ _
        _ ≤ dA + e.2 := by omega

theorem drop_take_succ_entry (es : List (Nat × Nat)) (j k : Nat) (h : j < es.length) :
    (es.drop j).take (k + 1) = es.getD j (0, 0) :: (es.drop (j + 1)).take k := by
  rw [List.drop_eq_getElem_cons h]
  have : es.getD j (0, 0) = es[j] := by
    rw [List.getD_eq_getElem?_getD, List.getElem?_eq_getElem h]
    rfl
  rw [this]
  rfl

/-- One relaxation step, seen per slot: a non-finalized live slot's
distance follows the fold step for the entry at position `j`; finalized
slots are untouched. -/
theorem relaxStep_dist_eq (c : Calc) (a j : Nat)
    (hlen : c.node_count ≤ c.nodes.length)
    (hids : ∀ i j', i < j' → j' < c.node_count → (getN c i).id ≠ (getN c j').id)
    (ha2 : a < c.node_count)
    (hwrapE : ∀ t, t < c.node_count → (getN c t).shortest_path_known = false →
      (getN c t).id = ((getN c a).edges.getD j (0, 0)).1 →
      (getN c a).distance + ((getN c a).edges.getD j (0, 0)).2 < 2 ^ c.width) :
    (∀ i, i < c.node_count → (getN c i).shortest_path_known = true →
      getN (relaxStep c a j) i = getN c i)
    ∧ (∀ i, i < c.node_count → (getN c i).shortest_path_known = false →
        (getN (relaxStep c a j) i).distance
          = if ((getN c a).edges.getD j (0, 0)).1 = (getN c i).id
              ∧ (getN c a).distance + ((getN c a).edges.getD j (0, 0)).2
                  < (getN c i).distance
            then (getN c a).distance + ((getN c a).edges.getD j (0, 0)).2
            else (getN c i).distance) := by
  set e := (getN c a).edges.getD j (0, 0) with he
  have hunfold : relaxStep c a j
      = (if c.get_index_by_id e.1 = c.node_count then c
        else if (getN c (c.get_index_by_id e.1)).shortest_path_known = true then c
        else if c.addW (getN c a).distance e.2
            < (getN c (c.get_index_by_id e.1)).distance
          then { c with nodes := c.nodes.set (c.get_index_by_id e.1) { getN c (c.get_index_by_id e.1) with distance := c.addW (getN c a).distance e.2, previous_node := (getN c a).id } }
          else c) := by
    simp only [relaxStep, ← he]
  by_cases h1 : c.get_index_by_id e.1 = c.node_count
  · have heq : relaxStep c a j = c := by rw [hunfold, if_pos h1]
    rw [heq]
    refine ⟨fun i _ _ => rfl, fun i hi hspk => ?_⟩
    rw [if_neg ?_]
    intro hcond
    have hle := get_index_of_mem c e.1 hlen i hi hcond.1.symm
    omega
  · have hni : c.get_index_by_id e.1 < c.node_count := by
      have := get_index_le c e.1 hlen
      omega
    have hniid : (getN c (c.get_index_by_id e.1)).id = e.1 := get_index_found c e.1 hlen hni
    by_cases h2 : (getN c (c.get_index_by_id e.1)).shortest_path_known = true
    · have heq : relaxStep c a j = c := by rw [hunfold, if_neg h1, if_pos h2]
      rw [heq]
      refine ⟨fun i _ _ => rfl, fun i hi hspk => ?_⟩
      rw [if_neg ?_]
      intro hcond
      have hee : c.get_index_by_id e.1 = i :=
        ids_inj c hids _ i hni hi (hniid.trans hcond.1)
      rw [hee, hspk] at h2
      exact Bool.noConfusion h2
    · have h2f : (getN c (c.get_index_by_id e.1)).shortest_path_known = false := by
        simpa using h2
      have haddW : c.addW (getN c a).distance e.2 = (getN c a).distance + e.2 := by
        rw [Calc.addW]
        exact Nat.mod_eq_of_lt (hwrapE _ hni h2f hniid)
      by_cases h3 : c.addW (getN c a).distance e.2
          < (getN c (c.get_index_by_id e.1)).distance
      · have heq : relaxStep c a j
            = { c with nodes := c.nodes.set (c.get_index_by_id e.1) { getN c (c.get_index_by_id e.1) with distance := c.addW (getN c a).distance e.2, previous_node := (getN c a).id } } := by
          rw [hunfold, if_neg h1, if_neg h2, if_pos h3]
        rw [heq]
        constructor
        · intro i hi hspk
          have hine : i ≠ c.get_index_by_id e.1 := by
            intro hh
            rw [hh, h2f] at hspk
            exact Bool.noConfusion hspk
          show (c.nodes.set _ _).getD i dnode = _
          rw [getD_set, if_neg (fun hh => hine hh.1)]
          rfl
        · intro i hi hspk
          by_cases hieq : i = c.get_index_by_id e.1
          · rw [hieq]
            show ((c.nodes.set _ _).getD (c.get_index_by_id e.1) dnode).distance = _
            rw [getD_set, if_pos ⟨rfl, by omega⟩]
            show c.addW (getN c a).distance e.2 = _
            rw [if_pos ⟨hniid.symm, by rw [← haddW]; exact h3⟩]
            exact haddW
          · show ((c.nodes.set _ _).getD i dnode).distance = _
            rw [getD_set, if_neg (fun hh => hieq hh.1)]
            rw [if_neg ?_]
            · rfl
            · intro hcond
              exact hieq (ids_inj c hids i _ hi hni (hcond.1.symm.trans hniid.symm))
      · have heq : relaxStep c a j = c := by rw [hunfold, if_neg h1, if_neg h2, if_neg h3]
        rw [heq]
        refine ⟨fun i _ _ => rfl, fun i hi hspk => ?_⟩
        rw [if_neg ?_]
        intro hcond
        have hieq : c.get_index_by_id e.1 = i :=
          ids_inj c hids _ i hni hi (hniid.trans hcond.1)
        rw [haddW, hieq] at h3
        exact h3 hcond.2


/-- The net effect of `relaxEdges` on the selected node `a`'s remaining
edge slice: finalized slots are untouched, and every non-finalized live
slot's distance is the relaxation fold of the slice applied to its old
distance. -/
theorem relaxAux_net (a : Nat) : ∀ (k j : Nat) (s : Calc),
    s.node_count ≤ s.nodes.length →
    (∀ i j', i < j' → j' < s.node_count → (getN s i).id ≠ (getN s j').id) →
    a < s.node_count →
    (getN s a).shortest_path_known = false →
    j + k ≤ (getN s a).edges.length →
    (∀ e ∈ (getN s a).edges, ∀ t, t < s.node_count →
      (getN s t).shortest_path_known = false → (getN s t).id = e.1 →
      (getN s a).distance + e.2 < 2 ^ s.width) →
    (∀ i, i < s.node_count → (getN s i).shortest_path_known = true →
      getN (relaxAux a j k s) i = getN s i)
    ∧ (∀ i, i < s.node_count → (getN s i).shortest_path_known = false →
        (getN (relaxAux a j k s) i).distance
          = relaxedDist (getN s a).distance (getN s i).id
              (((getN s a).edges.drop j).take k) (getN s i).distance) := by
  intro k
  induction k with
  | zero =>
    intro j s _ _ _ _ _ _
    exact ⟨fun i _ _ => rfl, fun i _ _ => rfl⟩
  | succ k ih =>
    intro j s hlen hids ha2 haspk hjk hwrap
    have hjlt : j < (getN s a).edges.length := by omega
    set e := (getN s a).edges.getD j (0, 0) with he
    have hemem : e ∈ (getN s a).edges := by
      rw [he]
      have : (getN s a).edges.getD j (0, 0) = (getN s a).edges[j] := by
        rw [List.getD_eq_getElem?_getD, List.getElem?_eq_getElem hjlt]
        rfl
      rw [this]
      exact List.getElem_mem _
    have hstep := relaxStep_dist_eq s a j hlen hids ha2
      (fun t ht hspk hid => hwrap e hemem t ht hspk hid)
    set s' := relaxStep s a j with hs'
    have hf := fun i => relaxStep_fields s a j i
    have hlen' : s'.node_count ≤ s'.nodes.length := by
      rw [(hf 0).2.2.1, (hf 0).2.2.2.1]
      exact hlen
    have hids' : ∀ i j', i < j' → j' < s'.node_count →
        (getN s' i).id ≠ (getN s' j').id := by
      intro i j' hij hj'
      rw [(hf i).2.2.2.2.1, (hf j').2.2.2.2.1]
      rw [(hf 0).2.2.1] at hj'
      exact hids i j' hij hj'
    have ha2' : a < s'.node_count := by
      rw [(hf 0).2.2.1]
      exact ha2
    have haspk' : (getN s' a).shortest_path_known = false := by
      rw [(hf a).2.2.2.2.2.2.1]
      exact haspk
    have hedges' : (getN s' a).edges = (getN s a).edges := (hf a).2.2.2.2.2.1
    have hdista' : (getN s' a).distance = (getN s a).distance := by
      rw [hstep.2 a ha2 haspk, if_neg ?_]
      intro hcond
      omega
    have hjk' : (j + 1) + k ≤ (getN s' a).edges.length := by
      rw [hedges']
      omega
    have hwrap' : ∀ e' ∈ (getN s' a).edges, ∀ t, t < s'.node_count →
        (getN s' t).shortest_path_known = false → (getN s' t).id = e'.1 →
        (getN s' a).distance + e'.2 < 2 ^ s'.width := by
      intro e' he' t ht hspk hid
      rw [hedges'] at he'
      rw [(hf 0).2.2.1] at ht
      rw [(hf t).2.2.2.2.2.2.1] at hspk
      rw [(hf t).2.2.2.2.1] at hid
      rw [hdista', (hf 0).1]
      exact hwrap e' he' t ht hspk hid
    have hih := ih (j + 1) s' hlen' hids' ha2' haspk' hjk' hwrap'
    have hrw : relaxAux a j (k + 1) s = relaxAux a (j + 1) k s' := rfl
    constructor
    · intro i hi hspk
      have hi' : i < s'.node_count := by rw [(hf 0).2.2.1]; exact hi
      have hspk' : (getN s' i).shortest_path_known = true := by
        rw [(hf i).2.2.2.2.2.2.1]
        exact hspk
      rw [hrw, hih.1 i hi' hspk']
      exact hstep.1 i hi hspk
    · intro i hi hspk
      have hi' : i < s'.node_count := by rw [(hf 0).2.2.1]; exact hi
      have hspk' : (getN s' i).shortest_path_known = false := by
        rw [(hf i).2.2.2.2.2.2.1]
        exact hspk
      have hid' : (getN s' i).id = (getN s i).id := (hf i).2.2.2.2.1
      rw [hrw, hih.2 i hi' hspk', hdista', hid', hedges']
      have hdisti : (getN s' i).distance
          = if e.1 = (getN s i).id
              ∧ (getN s a).distance + e.2 < (getN s i).distance
            then (getN s a).distance + e.2 else (getN s i).distance :=
        hstep.2 i hi hspk
      rw [hdisti]
      rw [drop_take_succ_entry (getN s a).edges j k hjlt, ← he]
      rfl

/-! ## Facts about the invariant's ingredients -/

theorem finSet_mem (c : Calc) (v : Nat) :
    v ∈ finSet c ↔ v < c.node_count ∧ 1 ≤ v
      ∧ (getN c v).shortest_path_known = true := by
  rw [finSet, Finset.mem_filter, Finset.mem_range]

theorem finSet_subset_Ico (c : Calc) : finSet c ⊆ Finset.Ico 1 c.node_count := by
  intro v hv
  rw [finSet_mem] at hv
  rw [Finset.mem_Ico]
  exact ⟨hv.2.1, hv.1⟩

theorem budgetB_le_inner (c : Calc) (i : Nat) (h1 : 1 ≤ i) (h2 : i < c.node_count) :
    budgetB c i ≤ innerTotal c := by
  have hsub : (finSet c).erase i ⊆ (Finset.Ico 1 c.node_count).erase i :=
    Finset.erase_subset_erase i (finSet_subset_Ico c)
  have h3 : ((finSet c).erase i).sum (fun v => costSum c v)
      ≤ ((Finset.Ico 1 c.node_count).erase i).sum (fun v => costSum c v) :=
    Finset.sum_le_sum_of_subset hsub
  have hmem : i ∈ Finset.Ico 1 c.node_count := Finset.mem_Ico.mpr ⟨h1, h2⟩
  have h4 : costSum c i + ((Finset.Ico 1 c.node_count).erase i).sum (fun v => costSum c v)
      = innerTotal c := by
    rw [innerTotal, ← Finset.sum_insert (Finset.not_mem_erase i _),
      Finset.insert_erase hmem]
  have h5 := srcPart_le_costSum c i
  rw [budgetB]
  omega

theorem inner_le_edgeTotal (c : Calc) : innerTotal c ≤ edgeTotal c := by
  rw [innerTotal, edgeTotal]
  refine Finset.sum_le_sum_of_subset ?_
  intro v hv
  rw [Finset.mem_Ico] at hv
  rw [Finset.mem_range]
  omega

theorem dist_lt_max (c : Calc) (inv : LoopInv c) (i : Nat) (h1 : 1 ≤ i)
    (h2 : i < c.node_count) (hne : (getN c i).distance ≠ c.maxDistance) :
    (getN c i).distance < c.maxDistance := by
  rcases inv.budget i h1 h2 with h | h
  · exact absurd h hne
  · have := budgetB_le_inner c i h1 h2
    have := inv.hsum
    omega

theorem edge_nonempty_iff (c : Calc) (a b : Nat) (ha : ¬ a = 0) :
    edgeCostsBetween c a b ≠ []
      ↔ ∃ e ∈ (getN c a).edges, e.1 = (getN c b).id := by
  rw [edgeCostsBetween, if_neg ha, Ne, List.map_eq_nil_iff, List.filter_eq_nil_iff]
  push_neg
  constructor
  · rintro ⟨e, hm, he⟩
    exact ⟨e, hm, by simpa using he⟩
  · rintro ⟨e, hm, he⟩
    exact ⟨e, hm, by simpa using he⟩

theorem edge_nonempty_src_iff (c : Calc) (b : Nat) :
    edgeCostsBetween c 0 b ≠ []
      ↔ ∃ e ∈ (getN c b).edges, e.1 = (getN c 0).id := by
  rw [edgeCostsBetween, if_pos rfl, Ne, List.map_eq_nil_iff, List.filter_eq_nil_iff]
  push_neg
  constructor
  · rintro ⟨e, hm, he⟩
    exact ⟨e, hm, by simpa using he⟩
  · rintro ⟨e, hm, he⟩
    exact ⟨e, hm, by simpa using he⟩

theorem wt_mem_entry (c : Calc) (a b : Nat) (ha : ¬ a = 0)
    (h : edgeCostsBetween c a b ≠ []) :
    ∃ e ∈ (getN c a).edges, e.1 = (getN c b).id ∧ e.2 = wt c a b := by
  have hm := minOfList_mem _ h
  rw [wt]
  have hlist : edgeCostsBetween c a b
      = ((getN c a).edges.filter (fun e => e.1 = (getN c b).id)).map Prod.snd := by
    rw [edgeCostsBetween, if_neg ha]
  rw [hlist] at hm ⊢
  rw [List.mem_map] at hm
  obtain ⟨e, hef, hsnd⟩ := hm
  rw [List.mem_filter] at hef
  exact ⟨e, hef.1, by simpa using hef.2, hsnd⟩

/-! ## `setup()` establishes the invariant -/

theorem seedDist_some_spec (srcId maxD : Nat) :
    ∀ es cst, seedDist srcId maxD es = some cst →
      ∃ e ∈ es, e.1 = srcId ∧ e.2 = cst ∧ cst < maxD := by
  intro es
  induction es with
  | nil => intro cst h; exact absurd h (by simp [seedDist])
  | cons e es ih =>
    intro cst h
    by_cases hc : e.1 = srcId ∧ e.2 < maxD
    · rw [seedDist, if_pos hc] at h
      have : e.2 = cst := by simpa using h
      exact ⟨e, by simp, hc.1, this, this ▸ hc.2⟩
    · rw [seedDist, if_neg hc] at h
      obtain ⟨e', hm, h1, h2, h3⟩ := ih cst h
      exact ⟨e', by simp [hm], h1, h2, h3⟩

theorem seedDist_isSome (srcId maxD : Nat) :
    ∀ es, (∀ e ∈ es, e.2 < maxD) → (∃ e ∈ es, e.1 = srcId) →
      ∃ cst, seedDist srcId maxD es = some cst := by
  intro es
  induction es with
  | nil => rintro _ ⟨e, hm, _⟩; exact absurd hm (by simp)
  | cons e es ih =>
    rintro hlt ⟨e', hm, hsrc⟩
    by_cases hc : e.1 = srcId ∧ e.2 < maxD
    · exact ⟨e.2, by rw [seedDist, if_pos hc]⟩
    · rcases List.mem_cons.mp hm with rfl | hm'
      · exact absurd ⟨hsrc, hlt e' (by simp)⟩ hc
      · obtain ⟨cst, hcst⟩ := ih (fun x hx => hlt x (by simp [hx])) ⟨e', hm', hsrc⟩
        exact ⟨cst, by rw [seedDist, if_neg hc]; exact hcst⟩

theorem seedDist_none_no_src (srcId maxD : Nat) :
    ∀ es, (∀ e ∈ es, e.2 < maxD) → seedDist srcId maxD es = none →
      ∀ e ∈ es, ¬ e.1 = srcId := by
  intro es
  induction es with
  | nil => intro _ _ e hm; exact absurd hm (by simp)
  | cons e es ih =>
    intro hlt h e' hm
    by_cases hc : e.1 = srcId ∧ e.2 < maxD
    · rw [seedDist, if_pos hc] at h
      exact absurd h (by simp)
    · rw [seedDist, if_neg hc] at h
      rcases List.mem_cons.mp hm with rfl | hm'
      · exact fun hsrc => hc ⟨hsrc, hlt e' (by simp)⟩
      · exact ih (fun x hx => hlt x (by simp [hx])) h e' hm'

theorem seedDist_unique (srcId maxD : Nat) :
    ∀ es cst, (∀ e ∈ es, e.2 < maxD) →
      (es.filter (fun e => e.1 = srcId)).length ≤ 1 →
      seedDist srcId maxD es = some cst →
      (es.filter (fun e => e.1 = srcId)).map Prod.snd = [cst] := by
  intro es
  induction es with
  | nil => intro cst _ _ h; exact absurd h (by simp [seedDist])
  | cons e es ih =>
    intro cst hlt hlen h
    by_cases hsrc : e.1 = srcId
    · have hc : e.1 = srcId ∧ e.2 < maxD := ⟨hsrc, hlt e (by simp)⟩
      rw [seedDist, if_pos hc] at h
      have hcst : e.2 = cst := by simpa using h
      rw [List.filter_cons_of_pos (by simpa using hsrc)] at hlen ⊢
      have hrest : es.filter (fun e => e.1 = srcId) = [] := by
        rw [List.length_cons] at hlen
        exact List.length_eq_zero.mp (by omega)
      rw [hrest]
      simp [hcst]
    · have hc : ¬ (e.1 = srcId ∧ e.2 < maxD) := fun hh => hsrc hh.1
      rw [seedDist, if_neg hc] at h
      rw [List.filter_cons_of_neg (by simpa using hsrc)] at hlen ⊢
      exact ih cst (fun x hx => hlt x (by simp [hx])) hlen h

theorem setupNodes_length (srcId maxD cnt : Nat) :
    ∀ (i : Nat) (L : List Node), (setupNodes srcId maxD cnt i L).length = L.length := by
  intro i L
  induction L generalizing i with
  | nil => rfl
  | cons nd rest ih => simp [setupNodes, ih]

theorem setup_count (c : Calc) : c.setup.node_count = c.node_count := rfl

theorem setup_width (c : Calc) : c.setup.width = c.width := rfl

theorem setup_maxD (c : Calc) : c.setup.maxDistance = c.maxDistance := rfl

theorem setup_length (c : Calc) : c.setup.nodes.length = c.nodes.length := by
  show (setupNodes _ _ _ 0 c.nodes).length = c.nodes.length
  exact setupNodes_length _ _ _ 0 c.nodes

/-- After `setup()`, a live non-source slot whose edge list yields no seed
is reset to unknown at distance infinity. -/
theorem setup_slot_none (c : Calc) (i : Nat) (h1 : 1 ≤ i) (h2 : i < c.node_count)
    (hlen : c.node_count ≤ c.nodes.length)
    (hseed : seedDist (getN c 0).id c.maxDistance (getN c i).edges = none) :
    getN c.setup i = { getN c i with shortest_path_known := false, distance := c.maxDistance } := by
  rw [setup_getN c i, if_pos (by omega), setupNode, if_neg (by omega), if_pos h2, hseed]

/-- After `setup()`, a live non-source slot whose edge list yields seed
`cst` is reset to unknown at distance `cst` with the source as predecessor. -/
theorem setup_slot_some (c : Calc) (i cst : Nat) (h1 : 1 ≤ i) (h2 : i < c.node_count)
    (hlen : c.node_count ≤ c.nodes.length)
    (hseed : seedDist (getN c 0).id c.maxDistance (getN c i).edges = some cst) :
    getN c.setup i = { getN c i with shortest_path_known := false, distance := cst, previous_node := (getN c 0).id } := by
  rw [setup_getN c i, if_pos (by omega), setupNode, if_neg (by omega), if_pos h2, hseed]

theorem setup_slot0 (c : Calc) (hpos : 1 ≤ c.node_count)
    (hlen : c.node_count ≤ c.nodes.length) :
    getN c.setup 0 = { getN c 0 with shortest_path_known := true } := by
  rw [setup_getN c 0, if_pos (by omega), setupNode, if_pos rfl]

theorem setup_inv (c : Calc) (hwf : WF c) : LoopInv c.setup := by
  have hlen : c.node_count ≤ c.nodes.length := by
    rw [hwf.hlen]
    exact hwf.hcnt
  have hg := graphEq_setup c
  have hlen' : c.setup.node_count ≤ c.setup.nodes.length := by
    rw [setup_count, setup_length]
    exact hlen
  have hids' : ∀ i j, i < j → j < c.setup.node_count →
      (getN c.setup i).id ≠ (getN c.setup j).id := by
    intro i j hij hj
    rw [← (hg.2.2 i).1, ← (hg.2.2 j).1]
    rw [setup_count] at hj
    exact hwf.hids i j hij hj
  have hinner : innerTotal c.setup < c.setup.maxDistance := by
    rw [← graphEq_innerTotal hg, setup_maxD]
    calc innerTotal c ≤ edgeTotal c := inner_le_edgeTotal c
      _ < c.maxDistance := hwf.hsum
  have hs0 := setup_slot0 c hwf.hpos hlen
  have hcostlt : ∀ i, 1 ≤ i → i < c.node_count →
      ∀ e ∈ (getN c i).edges, e.2 < c.maxDistance := by
    intro i hi1 hi2 e he
    calc e.2 ≤ costSum c i := cost_mem_le_costSum c i e he
      _ ≤ innerTotal c := costSum_le_inner c i hi1 hi2
      _ ≤ edgeTotal c := inner_le_edgeTotal c
      _ < c.maxDistance := hwf.hsum
  -- description of each live non-source slot after setup
  have hslot : ∀ i, 1 ≤ i → i < c.node_count →
      ((getN c.setup i).shortest_path_known = false
        ∧ ((getN c.setup i).distance = c.maxDistance
              ∧ (∀ e ∈ (getN c i).edges, ¬ e.1 = (getN c 0).id)
            ∨ ((getN c.setup i).distance < c.maxDistance
                ∧ ∃ e ∈ (getN c i).edges, e.1 = (getN c 0).id
                    ∧ e.2 = (getN c.setup i).distance))) := by
    intro i h1 h2
    cases hseed : seedDist (getN c 0).id c.maxDistance (getN c i).edges with
    | none =>
      rw [setup_slot_none c i h1 h2 hlen hseed]
      refine ⟨rfl, Or.inl ⟨rfl, ?_⟩⟩
      exact seedDist_none_no_src _ _ _ (hcostlt i h1 h2) hseed
    | some cst =>
      rw [setup_slot_some c i cst h1 h2 hlen hseed]
      obtain ⟨e, hm, hsrc, hcst, hclt⟩ := seedDist_some_spec _ _ _ _ hseed
      exact ⟨rfl, Or.inr ⟨hclt, e, hm, hsrc, hcst⟩⟩
  refine ⟨hlen', by rw [setup_count]; exact hwf.hpos, by rw [setup_width]; exact hwf.hw,
    hids', hinner, by rw [hs0], by rw [hs0]; exact hwf.hsrc, ?_, ?_, ?_, ?_, ?_, ?_, ?_, ?_⟩
  · -- reach
    intro i h1 h2 hne
    rw [setup_count] at h2
    rcases (hslot i h1 h2).2 with ⟨hd, _⟩ | ⟨_, e, hm, hsrc, _⟩
    · rw [setup_maxD] at hne
      exact absurd hd hne
    · have hedge : edgeCostsBetween c.setup 0 i ≠ [] := by
        rw [edge_nonempty_src_iff]
        refine ⟨e, ?_, ?_⟩
        · rw [← (hg.2.2 i).2]
          exact hm
        · rw [← (hg.2.2 0).1]
          exact hsrc
      have hp := path_singleton c.setup (by rw [setup_count]; exact hwf.hpos)
      have hext := path_extend c.setup 0 i [0] hp hedge (by rw [setup_count]; exact h2)
      exact ⟨[0] ++ [i], hext.1⟩
  · -- budget
    intro i h1 h2
    rw [setup_count] at h2
    rcases (hslot i h1 h2).2 with ⟨hd, _⟩ | ⟨_, e, hm, hsrc, hcst⟩
    · rw [setup_maxD]
      exact Or.inl hd
    · refine Or.inr ?_
      rw [budgetB]
      have : (getN c.setup i).distance ≤ srcPart c.setup i := by
        rw [← hcst, ← graphEq_srcPart hg]
        refine List.le_sum_of_mem (List.mem_map_of_mem Prod.snd ?_)
        rw [List.mem_filter]
        exact ⟨hm, by simpa using hsrc⟩
      omega
  · -- cross
    intro u hu hspku b h1 h2 hspkb hedge
    rw [setup_count] at hu h2
    have hu0 : u = 0 := by
      by_contra hne
      have := (hslot u (by omega) hu).1
      rw [this] at hspku
      exact Bool.noConfusion hspku
    subst hu0
    rw [edge_nonempty_src_iff] at hedge
    obtain ⟨e, hm, hsrc⟩ := hedge
    rw [← (hg.2.2 b).2] at hm
    rw [← (hg.2.2 0).1] at hsrc
    rcases (hslot b h1 h2).2 with ⟨_, hnone⟩ | ⟨hlt, _⟩
    · exact absurd hsrc (hnone e hm)
    · rw [setup_maxD]
      omega
  · -- settledR
    intro i hi hspk
    rw [setup_count] at hi
    by_cases h0 : i = 0
    · subst h0
      exact ⟨[0], path_singleton c.setup (by rw [setup_count]; exact hwf.hpos)⟩
    · have := (hslot i (by omega) hi).1
      rw [this] at hspk
      exact Bool.noConfusion hspk
  · -- finFinite
    intro i hi hspk
    by_cases h0 : i = 0
    · subst h0
      rw [hs0, setup_maxD]
      show (getN c 0).distance ≠ c.maxDistance
      rw [hwf.hsrc]
      have h1 := hwf.hw
      have h2 : 2 ≤ 2 ^ c.width := by
        calc 2 = 2 ^ 1 := rfl
          _ ≤ 2 ^ c.width := Nat.pow_le_pow_right (by omega) h1
      rw [Calc.maxDistance]
      omega
    · rw [setup_count] at hi
      have := (hslot i (by omega) hi).1
      rw [this] at hspk
      exact Bool.noConfusion hspk
  · -- exactD
    intro hpar i hi hspk
    rw [setup_count] at hi
    by_cases h0 : i = 0
    · subst h0
      have := isDelta_source c.setup (by rw [setup_count]; exact hwf.hpos)
      rw [hs0]
      show IsDelta c.setup 0 (getN c 0).distance
      rw [hwf.hsrc]
      exact this
    · have := (hslot i (by omega) hi).1
      rw [this] at hspk
      exact Bool.noConfusion hspk
  · -- frontier
    intro hpar u hu hspku b h1 h2 hspkb hedge
    rw [setup_count] at hu h2
    have hu0 : u = 0 := by
      by_contra hne
      have := (hslot u (by omega) hu).1
      rw [this] at hspku
      exact Bool.noConfusion hspku
    subst hu0
    -- seeded value equals the unique parallel cost = wt
    have hedge' := hedge
    rw [edge_nonempty_src_iff] at hedge'
    obtain ⟨e, hm, hsrc⟩ := hedge'
    rw [← (hg.2.2 b).2] at hm
    rw [← (hg.2.2 0).1] at hsrc
    obtain ⟨cst, hseed⟩ := seedDist_isSome (getN c 0).id c.maxDistance (getN c b).edges
      (hcostlt b h1 h2) ⟨e, hm, hsrc⟩
    have hpar' : ((getN c b).edges.filter (fun e => e.1 = (getN c 0).id)).length ≤ 1 :=
      (graphEq_noPar hg).mpr hpar b h1 h2
    have huniq := seedDist_unique (getN c 0).id c.maxDistance (getN c b).edges cst
      (hcostlt b h1 h2) hpar' hseed
    have hwtv : wt c.setup 0 b = cst := by
      rw [← graphEq_wt hg, wt]
      have hlist : edgeCostsBetween c 0 b
          = ((getN c b).edges.filter (fun e => e.1 = (getN c 0).id)).map Prod.snd := by
        rw [edgeCostsBetween, if_pos rfl]
      rw [hlist, huniq]
      rfl
    have hdb : (getN c.setup b).distance = cst := by
      rw [setup_slot_some c b cst h1 h2 hlen hseed]
    rw [hdb, hwtv, hs0]
    show cst ≤ (getN c 0).distance + cst
    omega
  · -- frontAtt
    intro hpar b h1 h2 hspkb
    rw [setup_count] at h2
    rcases (hslot b h1 h2).2 with ⟨hd, _⟩ | ⟨hlt, e, hm, hsrc, hcst⟩
    · rw [setup_maxD]
      exact Or.inl hd
    · refine Or.inr ⟨0, by rw [setup_count]; omega, by rw [hs0], ?_, ?_⟩
      · rw [edge_nonempty_src_iff]
        exact ⟨e, by rw [← (hg.2.2 b).2]; exact hm, by rw [← (hg.2.2 0).1]; exact hsrc⟩
      · -- distance = dist 0 + wt 0 b
        obtain ⟨cst, hseed⟩ := seedDist_isSome (getN c 0).id c.maxDistance
          (getN c b).edges (hcostlt b h1 h2) ⟨e, hm, hsrc⟩
        have hpar' : ((getN c b).edges.filter
            (fun e => e.1 = (getN c 0).id)).length ≤ 1 :=
          (graphEq_noPar hg).mpr hpar b h1 h2
        have huniq := seedDist_unique (getN c 0).id c.maxDistance (getN c b).edges cst
          (hcostlt b h1 h2) hpar' hseed
        have hwtv : wt c.setup 0 b = cst := by
          rw [← graphEq_wt hg, wt]
          have hlist : edgeCostsBetween c 0 b
              = ((getN c b).edges.filter (fun e => e.1 = (getN c 0).id)).map Prod.snd := by
            rw [edgeCostsBetween, if_pos rfl]
          rw [hlist, huniq]
          rfl
        have hdb : (getN c.setup b).distance = cst := by
          rw [setup_slot_some c b cst h1 h2 hlen hseed]
        rw [hdb, hwtv, hs0]
        show cst = (getN c 0).distance + cst
        rw [hwf.hsrc]
        omega

/-! ## One full relaxation pass, and why it cannot overflow -/

/-- Net effect of `relax()` on every slot: finalized slots untouched,
each non-finalized slot's distance is the fold of the selected node's
whole edge list. -/
theorem relaxEdges_net (s : Calc) (a : Nat)
    (hlen : s.node_count ≤ s.nodes.length)
    (hids : ∀ i j, i < j → j < s.node_count → (getN s i).id ≠ (getN s j).id)
    (ha : a < s.node_count) (haspk : (getN s a).shortest_path_known = false)
    (hwrap : ∀ e ∈ (getN s a).edges, ∀ t, t < s.node_count →
      (getN s t).shortest_path_known = false → (getN s t).id = e.1 →
      (getN s a).distance + e.2 < 2 ^ s.width) :
    (∀ i, i < s.node_count → (getN s i).shortest_path_known = true →
      getN (s.relaxEdges a) i = getN s i)
    ∧ (∀ i, i < s.node_count → (getN s i).shortest_path_known = false →
        (getN (s.relaxEdges a) i).distance
          = relaxedDist (getN s a).distance (getN s i).id
              (getN s a).edges (getN s i).distance) := by
  have h := relaxAux_net a (getN s a).edges.length 0 s hlen hids ha haspk
    (by omega) hwrap
  have hsl : ((getN s a).edges.drop 0).take (getN s a).edges.length
      = (getN s a).edges := by simp
  rw [hsl] at h
  exact h

/-- Any cost stored at an unfinalized slot `a`, added to `a`'s in-budget
distance, stays below the total — provided the entry does not name the
source. -/
theorem unfin_not_finSet (c : Calc) (a : Nat)
    (hspk : (getN c a).shortest_path_known = false) : a ∉ finSet c := by
  rw [finSet_mem]
  intro hmem
  rw [hspk] at hmem
  exact Bool.noConfusion hmem.2.2

theorem budget_edge_bound (c : Calc) (inv : LoopInv c) (a : Nat)
    (h1 : 1 ≤ a) (h2 : a < c.node_count)
    (hspk : (getN c a).shortest_path_known = false)
    (hda : (getN c a).distance ≤ budgetB c a)
    (e : Nat × Nat) (he : e ∈ (getN c a).edges)
    (hne : ¬ e.1 = (getN c 0).id) :
    (getN c a).distance + e.2
      ≤ costSum c a + (finSet c).sum (fun v => costSum c v) := by
  have he2 : e.2 ≤ nonSrcPart c a := cost_mem_le_nonSrcPart c a e he hne
  have hnotin : a ∉ finSet c := unfin_not_finSet c a hspk
  have herase : (finSet c).erase a = finSet c := Finset.erase_eq_of_not_mem hnotin
  have hparts := srcPart_add_nonSrcPart c a
  rw [budgetB, herase] at hda
  omega

/-- The grown finalized set stays within the total over `[1, count)`. -/
theorem finSet_cost_le_inner (c : Calc) (a : Nat)
    (h1 : 1 ≤ a) (h2 : a < c.node_count) (hnotin : a ∉ finSet c) :
    costSum c a + (finSet c).sum (fun v => costSum c v) ≤ innerTotal c := by
  have hins : (insert a (finSet c)).sum (fun v => costSum c v)
      = costSum c a + (finSet c).sum (fun v => costSum c v) :=
    Finset.sum_insert hnotin
  have hsub : insert a (finSet c) ⊆ Finset.Ico 1 c.node_count := by
    intro v hv
    rcases Finset.mem_insert.mp hv with rfl | hv'
    · exact Finset.mem_Ico.mpr ⟨h1, h2⟩
    · exact finSet_subset_Ico c hv'
  rw [← hins, innerTotal]
  exact Finset.sum_le_sum_of_subset hsub

/-- `maxDistance` itself fits strictly under the modulus. -/
theorem maxD_lt_pow (c : Calc) (hw : 1 ≤ c.width) :
    c.maxDistance < 2 ^ c.width := by
  rw [Calc.maxDistance]
  have : 1 ≤ 2 ^ c.width := Nat.one_le_two_pow
  omega

/-- The overflow-freedom hypothesis that `relaxEdges_net` needs, derived
from the invariant for the selected slot. -/
theorem inv_wrap_free (c : Calc) (inv : LoopInv c) (a : Nat)
    (h1 : 1 ≤ a) (h2 : a < c.node_count)
    (hspk : (getN c a).shortest_path_known = false)
    (hda : (getN c a).distance ≤ budgetB c a) :
    ∀ e ∈ (getN c a).edges, ∀ t, t < c.node_count →
      (getN c t).shortest_path_known = false → (getN c t).id = e.1 →
      (getN c a).distance + e.2 < 2 ^ c.width := by
  intro e he t ht htspk htid
  have ht0 : t ≠ 0 := by
    intro h0
    rw [h0, inv.f0] at htspk
    exact Bool.noConfusion htspk
  have hne : ¬ e.1 = (getN c 0).id := by
    intro hsrc
    exact inv.hids 0 t (by omega) ht (by rw [htid, hsrc])
  calc (getN c a).distance + e.2
      ≤ costSum c a + (finSet c).sum (fun v => costSum c v) :=
        budget_edge_bound c inv a h1 h2 hspk hda e he hne
    _ ≤ innerTotal c := finSet_cost_le_inner c a h1 h2 (unfin_not_finSet c a hspk)
    _ < c.maxDistance := inv.hsum
    _ < 2 ^ c.width := maxD_lt_pow c inv.hw

/-! ## The frontier-crossing argument -/

/-- Shortest-path costs satisfy the triangle inequality along any known
edge. -/
theorem isDelta_triangle (c : Calc) (u v du dv : Nat)
    (hdu : IsDelta c u du) (hdv : IsDelta c v dv)
    (hedge : edgeCostsBetween c u v ≠ []) (hv : v < c.node_count) :
    dv ≤ du + wt c u v := by
  obtain ⟨⟨l, hp, hcost⟩, _⟩ := hdu
  obtain ⟨_, hmin⟩ := hdv
  have hext := path_extend c u v l hp hedge hv
  calc dv ≤ chainCost c (l ++ [v]) := hmin _ hext.1
    _ = chainCost c l + wt c u v := hext.2
    _ = du + wt c u v := by rw [hcost]

/-- The crossing bound: when every non-finalized live slot's tentative
distance is at least `md`, every known walk from a finalized slot to a
non-finalized one costs at least `md` minus the start's distance.  Stated
additively to keep everything in `Nat`. -/
theorem frontier_walk_bound (c : Calc) (inv : LoopInv c)
    (hpar : NoParallelSource c) (md : Nat)
    (hmd : ∀ b, 1 ≤ b → b < c.node_count →
      (getN c b).shortest_path_known = false → md ≤ (getN c b).distance) :
    ∀ l, chainOK c l = true →
      ∀ u i, l.head? = some u → l.getLast? = some i →
        (getN c u).shortest_path_known = true →
        (getN c i).shortest_path_known = false →
        md ≤ (getN c u).distance + chainCost c l := by
  intro l
  induction l with
  | nil => intro _ u i hh; exact absurd hh (by simp)
  | cons v rest ih =>
    intro hok u i hh hl hu hi
    have huv : v = u := by simpa using hh
    subst huv
    cases rest with
    | nil =>
      have : v = i := by simpa using hl
      subst this
      rw [hu] at hi
      exact Bool.noConfusion hi
    | cons w rest' =>
      have hh2 := (chainOK_cons_cons c v w rest').mp hok
      have hwlt : w < c.node_count := chainOK_head_lt c w rest' hh2.2.2
      rw [chainCost_cons_cons]
      by_cases hspkw : (getN c w).shortest_path_known = true
      · have hl' : (w :: rest').getLast? = some i := by
          rw [← hl, List.getLast?_cons_cons]
        have hih := ih hh2.2.2 w i rfl hl' hspkw hi
        have htri : (getN c w).distance ≤ (getN c v).distance + wt c v w :=
          isDelta_triangle c v w _ _
            (inv.exactD hpar v hh2.1 hu) (inv.exactD hpar w hwlt hspkw)
            hh2.2.1 hwlt
        omega
      · have hspkw' : (getN c w).shortest_path_known = false := by
          cases hb : (getN c w).shortest_path_known
          · rfl
          · exact absurd hb hspkw
        have hw0 : w ≠ 0 := by
          intro h0
          rw [h0, inv.f0] at hspkw'
          exact Bool.noConfusion hspkw'
        have hfr := inv.frontier hpar v hh2.1 hu w (by omega) hwlt hspkw' hh2.2.1
        have hmdw := hmd w (by omega) hwlt hspkw'
        have hrest : 0 ≤ chainCost c (w :: rest') := Nat.zero_le _
        omega

/-- The slot a successful round selects really carries the shortest-path
cost from the source. -/
theorem selected_isDelta (c : Calc) (inv : LoopInv c)
    (hpar : NoParallelSource c) (hmin : c.selectMin.1 ≠ c.maxDistance) :
    IsDelta c c.selectMin.2 c.selectMin.1 := by
  obtain ⟨ha1, ha2, haspk, hadist⟩ := selectMin_attained c hmin
  set a := c.selectMin.2 with haa
  constructor
  · -- attainment, through the frontier witness
    rcases inv.frontAtt hpar a ha1 ha2 haspk with hmax | ⟨u, hu, huspk, hedge, heq⟩
    · rw [hadist] at hmax
      exact absurd hmax hmin
    · obtain ⟨⟨l, hp, hcost⟩, _⟩ := inv.exactD hpar u hu huspk
      have hext := path_extend c u a l hp hedge ha2
      refine ⟨l ++ [a], hext.1, ?_⟩
      rw [hext.2, hcost, ← heq, hadist]
  · -- minimality, through the crossing bound
    intro l hp
    obtain ⟨hok, hhead, hlast⟩ := hp
    have hb := frontier_walk_bound c inv hpar c.selectMin.1
      (fun b hb1 hb2 hbspk => selectMin_le c b hb1 hb2 hbspk)
      l hok 0 a hhead hlast inv.f0 haspk
    rw [inv.d0] at hb
    omega

theorem wt_eq_filter (c : Calc) (a b : Nat) (ha : ¬ a = 0) :
    wt c a b = minOfList (((getN c a).edges.filter
      (fun e => e.1 = (getN c b).id)).map Prod.snd) := by
  rw [wt, edgeCostsBetween, if_neg ha]

theorem edge_filter_ne (c : Calc) (a b : Nat) (ha : ¬ a = 0)
    (h : edgeCostsBetween c a b ≠ []) :
    ((getN c a).edges.filter (fun e => e.1 = (getN c b).id)).map Prod.snd ≠ [] := by
  rw [edgeCostsBetween, if_neg ha] at h
  exact h

/-- The heart of the verification: one successful round of `loop()`
preserves the invariant. -/
theorem round_inv (c c' : Calc) (inv : LoopInv c) (h : c.round = some c') :
    LoopInv c' := by
  have hmin : ¬ c.selectMin.1 = c.maxDistance := by
    intro hm
    rw [(round_none_iff c).mpr hm] at h
    exact Option.noConfusion h
  obtain ⟨ha1, ha2, haspk, hadist⟩ := selectMin_attained c hmin
  have hg : GraphEq c c' := graphEq_round h
  have hrfl := fun k => round_fields c c' h k
  have hmaxEq : c'.maxDistance = c.maxDistance := (graphEq_maxD hg).symm
  have hcnt : c'.node_count = c.node_count := (hrfl 0).2.2.1
  have hdaB : (getN c c.selectMin.2).distance ≤ budgetB c c.selectMin.2 := by
    rcases inv.budget _ ha1 ha2 with hd | hd
    · rw [hadist] at hd
      exact absurd hd hmin
    · exact hd
  have hdane : (getN c c.selectMin.2).distance ≠ c.maxDistance := by
    rw [hadist]
    exact hmin
  have hwrap := inv_wrap_free c inv c.selectMin.2 ha1 ha2 haspk hdaB
  have hnet := relaxEdges_net c c.selectMin.2 inv.hlen inv.hids ha2 haspk hwrap
  have hrlen : (c.relaxEdges c.selectMin.2).nodes.length = c.nodes.length :=
    (relaxEdges_fields c c.selectMin.2 0).2.2.2.1
  have halen : c.selectMin.2 < (c.relaxEdges c.selectMin.2).nodes.length := by
    rw [hrlen]
    have := inv.hlen
    omega
  have hc' : c' = { c.relaxEdges c.selectMin.2 with
      nodes := (c.relaxEdges c.selectMin.2).nodes.set c.selectMin.2
        { getN (c.relaxEdges c.selectMin.2) c.selectMin.2 with
            shortest_path_known := true } } := by
    rw [round_some_eq c hmin] at h
    exact (Option.some_inj.mp h).symm
  have hgetA : getN c' c.selectMin.2
      = { getN (c.relaxEdges c.selectMin.2) c.selectMin.2 with
          shortest_path_known := true } := by
    rw [hc']
    show ((c.relaxEdges c.selectMin.2).nodes.set c.selectMin.2 _).getD _ dnode = _
    rw [getD_set, if_pos ⟨rfl, halen⟩]
  have hgetNe : ∀ k, k ≠ c.selectMin.2 →
      getN c' k = getN (c.relaxEdges c.selectMin.2) k := by
    intro k hk
    rw [hc']
    show ((c.relaxEdges c.selectMin.2).nodes.set c.selectMin.2 _).getD _ dnode = _
    rw [getD_set, if_neg (fun hh => hk hh.1)]
    rfl
  have hspkA : (getN c' c.selectMin.2).shortest_path_known = true := by
    rw [hgetA]
  have hdistA : (getN c' c.selectMin.2).distance
      = (getN c c.selectMin.2).distance := by
    rw [hgetA]
    show (getN (c.relaxEdges c.selectMin.2) c.selectMin.2).distance = _
    rw [hnet.2 c.selectMin.2 ha2 haspk, relaxedDist_self]
  have hslotF : ∀ i, i < c.node_count → (getN c i).shortest_path_known = true →
      getN c' i = getN c i := by
    intro i hi hsp
    have hne : i ≠ c.selectMin.2 := by
      intro he
      rw [he, haspk] at hsp
      exact Bool.noConfusion hsp
    rw [hgetNe i hne, hnet.1 i hi hsp]
  have hslotU : ∀ i, i < c.node_count → i ≠ c.selectMin.2 →
      (getN c i).shortest_path_known = false →
      (getN c' i).shortest_path_known = false
      ∧ (getN c' i).distance
          = relaxedDist (getN c c.selectMin.2).distance (getN c i).id
              (getN c c.selectMin.2).edges (getN c i).distance := by
    intro i hi hne hsp
    rw [hgetNe i hne]
    refine ⟨?_, hnet.2 i hi hsp⟩
    rw [(relaxEdges_fields c c.selectMin.2 i).2.2.2.2.2.2.1]
    exact hsp
  have hspkC : ∀ i, i < c.node_count → i ≠ c.selectMin.2 →
      (getN c' i).shortest_path_known = true →
      (getN c i).shortest_path_known = true := by
    intro i hi hne hsp
    cases hb : (getN c i).shortest_path_known
    · have := (hslotU i hi hne hb).1
      rw [this] at hsp
      exact Bool.noConfusion hsp
    · rfl
  have hanotin : c.selectMin.2 ∉ finSet c := unfin_not_finSet c _ haspk
  have hfin : finSet c' = insert c.selectMin.2 (finSet c) := by
    ext v
    rw [finSet_mem, Finset.mem_insert, finSet_mem, hcnt]
    constructor
    · rintro ⟨hv, hv1, hspk⟩
      by_cases hva : v = c.selectMin.2
      · exact Or.inl hva
      · exact Or.inr ⟨hv, hv1, hspkC v hv hva hspk⟩
    · rintro (rfl | ⟨hv, hv1, hspk⟩)
      · exact ⟨ha2, ha1, hspkA⟩
      · exact ⟨hv, hv1, by rw [hslotF v hv hspk]; exact hspk⟩
  have hbudC' : ∀ i, budgetB c' i = srcPart c i
      + ((insert c.selectMin.2 (finSet c)).erase i).sum (fun v => costSum c v) := by
    intro i
    rw [budgetB, hfin, ← graphEq_srcPart hg]
    refine congrArg (srcPart c i + ·) ?_
    refine Finset.sum_congr rfl (fun v _ => (graphEq_costSum hg v).symm)
  have hmono : ∀ i, budgetB c i ≤ budgetB c' i := by
    intro i
    rw [hbudC' i, budgetB]
    refine Nat.add_le_add_left (Finset.sum_le_sum_of_subset ?_) _
    exact Finset.erase_subset_erase _ (Finset.subset_insert _ _)
  have hedgeBound : ∀ (e : Nat × Nat), e ∈ (getN c c.selectMin.2).edges →
      ¬ e.1 = (getN c 0).id →
      (getN c c.selectMin.2).distance + e.2
        ≤ costSum c c.selectMin.2 + (finSet c).sum (fun v => costSum c v) :=
    fun e he hne => budget_edge_bound c inv c.selectMin.2 ha1 ha2 haspk hdaB e he hne
  refine ⟨?_, ?_, ?_, ?_, ?_, ?_, ?_, ?_, ?_, ?_, ?_, ?_, ?_, ?_, ?_⟩
  · -- hlen
    rw [hcnt, (hrfl 0).2.2.2.1]
    exact inv.hlen
  · -- hpos
    rw [hcnt]
    exact inv.hpos
  · -- hw
    rw [(hrfl 0).1]
    exact inv.hw
  · -- hids
    intro i j hij hj
    rw [(hrfl i).2.2.2.2.1, (hrfl j).2.2.2.2.1]
    rw [hcnt] at hj
    exact inv.hids i j hij hj
  · -- hsum
    rw [← graphEq_innerTotal hg, hmaxEq]
    exact inv.hsum
  · -- f0
    rw [hslotF 0 (by have := inv.hpos; omega) inv.f0]
    exact inv.f0
  · -- d0
    rw [hslotF 0 (by have := inv.hpos; omega) inv.f0]
    exact inv.d0
  · -- reach
    intro i h1 h2 hne
    rw [hcnt] at h2
    rw [hmaxEq] at hne
    have hR : Reachable c i → Reachable c' i := (graphEq_reachable hg i).mp
    by_cases hia : i = c.selectMin.2
    · subst hia
      exact hR (inv.reach _ ha1 ha2 hdane)
    · by_cases hsp : (getN c i).shortest_path_known = true
      · exact hR (inv.settledR i h2 hsp)
      · have hspf : (getN c i).shortest_path_known = false := by
          cases hb : (getN c i).shortest_path_known
          · rfl
          · exact absurd hb hsp
        have hslot := hslotU i h2 hia hspf
        rcases relaxedDist_cases (getN c c.selectMin.2).distance (getN c i).id
            (getN c c.selectMin.2).edges (getN c i).distance with hcase | ⟨e, hm, hid, heq⟩
        · rw [hslot.2, hcase] at hne
          exact hR (inv.reach i h1 h2 hne)
        · have hedge : edgeCostsBetween c c.selectMin.2 i ≠ [] := by
            rw [edge_nonempty_iff c _ i (by omega)]
            exact ⟨e, hm, hid⟩
          obtain ⟨l, hp⟩ := inv.reach _ ha1 ha2 hdane
          exact hR ⟨l ++ [i], (path_extend c _ i l hp hedge h2).1⟩
  · -- budget
    intro i h1 h2
    rw [hcnt] at h2
    rw [hmaxEq]
    by_cases hia : i = c.selectMin.2
    · subst hia
      refine Or.inr ?_
      rw [hdistA]
      exact hdaB.trans (hmono _)
    · by_cases hsp : (getN c i).shortest_path_known = true
      · rw [hslotF i h2 hsp]
        rcases inv.budget i h1 h2 with hd | hd
        · exact absurd hd (inv.finFinite i h2 hsp)
        · exact Or.inr (hd.trans (hmono i))
      · have hspf : (getN c i).shortest_path_known = false := by
          cases hb : (getN c i).shortest_path_known
          · rfl
          · exact absurd hb hsp
        have hslot := hslotU i h2 hia hspf
        rcases relaxedDist_cases (getN c c.selectMin.2).distance (getN c i).id
            (getN c c.selectMin.2).edges (getN c i).distance with hcase | ⟨e, hm, hid, heq⟩
        · rw [hslot.2, hcase]
          rcases inv.budget i h1 h2 with hd | hd
          · exact Or.inl hd
          · exact Or.inr (hd.trans (hmono i))
        · refine Or.inr ?_
          rw [hslot.2, heq, hbudC' i]
          have hine : ¬ e.1 = (getN c 0).id := by
            intro hsrc
            exact inv.hids 0 i (by omega) h2 (by rw [← hsrc]; exact hid)
          have hb := hedgeBound e hm hine
          have hinotin : i ∉ insert c.selectMin.2 (finSet c) := by
            rw [Finset.mem_insert]
            rintro (rfl | hmem)
            · exact hia rfl
            · exact unfin_not_finSet c i hspf hmem
          rw [Finset.erase_eq_of_not_mem hinotin, Finset.sum_insert hanotin]
          omega
  · -- cross
    intro u hu hspku b hb1 hb2 hspkb hedge
    rw [hcnt] at hu hb2
    have hedgeC : edgeCostsBetween c u b ≠ [] := by
      rw [graphEq_edges hg u b]
      exact hedge
    have hbna : b ≠ c.selectMin.2 := by
      intro he
      rw [he, hspkA] at hspkb
      exact Bool.noConfusion hspkb
    have hbspf : (getN c b).shortest_path_known = false := by
      cases hcb : (getN c b).shortest_path_known
      · rfl
      · have := hslotF b hb2 hcb
        rw [this] at hspkb
        rw [hcb] at hspkb
        exact Bool.noConfusion hspkb
    have hslot := hslotU b hb2 hbna hbspf
    have hle : (getN c' b).distance ≤ (getN c b).distance := by
      rw [hslot.2]
      exact relaxedDist_le_init _ _ _ _
    rw [hmaxEq]
    by_cases hua : u = c.selectMin.2
    · subst hua
      obtain ⟨e, hm, hid⟩ := (edge_nonempty_iff c _ b (by omega)).mp hedgeC
      have hine : ¬ e.1 = (getN c 0).id := by
        intro hsrc
        exact inv.hids 0 b (by omega) hb2 (by rw [← hsrc]; exact hid)
      have hub : (getN c' b).distance ≤ (getN c c.selectMin.2).distance + e.2 := by
        rw [hslot.2]
        exact relaxedDist_le_entry _ _ _ _ e hm hid
      have hbnd := hedgeBound e hm hine
      have hinner := finSet_cost_le_inner c _ ha1 ha2 hanotin
      have := inv.hsum
      omega
    · have hspkuC : (getN c u).shortest_path_known = true := hspkC u hu hua hspku
      have hcr := inv.cross u hu hspkuC b hb1 hb2 hbspf hedgeC
      have := dist_lt_max c inv b hb1 hb2 hcr
      omega
  · -- settledR
    intro i hi hspk
    rw [hcnt] at hi
    have hR : Reachable c i → Reachable c' i := (graphEq_reachable hg i).mp
    by_cases hia : i = c.selectMin.2
    · subst hia
      exact hR (inv.reach _ ha1 ha2 hdane)
    · exact hR (inv.settledR i hi (hspkC i hi hia hspk))
  · -- finFinite
    intro i hi hspk
    rw [hcnt] at hi
    rw [hmaxEq]
    by_cases hia : i = c.selectMin.2
    · subst hia
      rw [hdistA]
      exact hdane
    · have hspkC' := hspkC i hi hia hspk
      rw [hslotF i hi hspkC']
      exact inv.finFinite i hi hspkC'
  · -- exactD
    intro hpar i hi hspk
    have hparC : NoParallelSource c := (graphEq_noPar hg).mpr hpar
    rw [hcnt] at hi
    by_cases hia : i = c.selectMin.2
    · subst hia
      rw [hdistA, hadist]
      exact (graphEq_isDelta hg c.selectMin.2 c.selectMin.1).mp
        (selected_isDelta c inv hparC hmin)
    · have hspkC' := hspkC i hi hia hspk
      rw [hslotF i hi hspkC']
      exact (graphEq_isDelta hg i _).mp (inv.exactD hparC i hi hspkC')
  · -- frontier
    intro hpar u hu hspku b hb1 hb2 hspkb hedge
    have hparC : NoParallelSource c := (graphEq_noPar hg).mpr hpar
    rw [hcnt] at hu hb2
    have hedgeC : edgeCostsBetween c u b ≠ [] := by
      rw [graphEq_edges hg u b]
      exact hedge
    have hbna : b ≠ c.selectMin.2 := by
      intro he
      rw [he, hspkA] at hspkb
      exact Bool.noConfusion hspkb
    have hbspf : (getN c b).shortest_path_known = false := by
      cases hcb : (getN c b).shortest_path_known
      · rfl
      · have := hslotF b hb2 hcb
        rw [this] at hspkb
        rw [hcb] at hspkb
        exact Bool.noConfusion hspkb
    have hslot := hslotU b hb2 hbna hbspf
    rw [← graphEq_wt hg u b]
    by_cases hua : u = c.selectMin.2
    · subst hua
      rw [hslot.2, hdistA]
      have hfne := edge_filter_ne c c.selectMin.2 b (by omega) hedgeC
      rw [relaxedDist_min_wt _ _ _ _ hfne, wt_eq_filter c c.selectMin.2 b (by omega)]
      exact Nat.min_le_right _ _
    · have hspkuC : (getN c u).shortest_path_known = true := hspkC u hu hua hspku
      have hfr := inv.frontier hparC u hu hspkuC b hb1 hb2 hbspf hedgeC
      have hle : (getN c' b).distance ≤ (getN c b).distance := by
        rw [hslot.2]
        exact relaxedDist_le_init _ _ _ _
      rw [hslotF u hu hspkuC]
      omega
  · -- frontAtt
    intro hpar b hb1 hb2 hspkb
    have hparC : NoParallelSource c := (graphEq_noPar hg).mpr hpar
    rw [hcnt] at hb2
    have hbna : b ≠ c.selectMin.2 := by
      intro he
      rw [he, hspkA] at hspkb
      exact Bool.noConfusion hspkb
    have hbspf : (getN c b).shortest_path_known = false := by
      cases hcb : (getN c b).shortest_path_known
      · rfl
      · have := hslotF b hb2 hcb
        rw [this] at hspkb
        rw [hcb] at hspkb
        exact Bool.noConfusion hspkb
    have hslot := hslotU b hb2 hbna hbspf
    have hfromC : (getN c' b).distance = (getN c b).distance →
        ((getN c' b).distance = c'.maxDistance
          ∨ ∃ u, u < c'.node_count ∧ (getN c' u).shortest_path_known = true
              ∧ edgeCostsBetween c' u b ≠ []
              ∧ (getN c' b).distance = (getN c' u).distance + wt c' u b) := by
      intro heq
      rcases inv.frontAtt hparC b hb1 hb2 hbspf with hmax | ⟨u, hu, huspk, hue, hud⟩
      · refine Or.inl ?_
        rw [heq, hmaxEq]
        exact hmax
      · have huna : u ≠ c.selectMin.2 := by
          intro he
          rw [he, haspk] at huspk
          exact Bool.noConfusion huspk
        refine Or.inr ⟨u, by rw [hcnt]; exact hu, ?_, ?_, ?_⟩
        · rw [hslotF u hu huspk]
          exact huspk
        · rw [← graphEq_edges hg u b]
          intro hnil
          rw [hnil] at hue
          have hwtz : wt c u b = 0 := by
            rw [wt, hnil]
            rfl
          exact hue rfl
        · rw [heq, hslotF u hu huspk, ← graphEq_wt hg u b]
          exact hud
    by_cases hedge : edgeCostsBetween c c.selectMin.2 b = []
    · -- no edge from the selected slot: distance unchanged
      have hnomatch : ∀ e ∈ (getN c c.selectMin.2).edges, ¬ e.1 = (getN c b).id := by
        intro e he hid
        exact (edge_nonempty_iff c _ b (by omega)).mpr ⟨e, he, hid⟩ hedge
      have heq : (getN c' b).distance = (getN c b).distance := by
        rw [hslot.2]
        rcases relaxedDist_cases (getN c c.selectMin.2).distance (getN c b).id
            (getN c c.selectMin.2).edges (getN c b).distance with hcase | ⟨e, hm, hid, _⟩
        · exact hcase
        · exact absurd hid (hnomatch e hm)
      exact hfromC heq
    · have hfne := edge_filter_ne c c.selectMin.2 b (by omega) hedge
      have hminwt : (getN c' b).distance
          = min (getN c b).distance
              ((getN c c.selectMin.2).distance + wt c c.selectMin.2 b) := by
        rw [hslot.2, relaxedDist_min_wt _ _ _ _ hfne,
          wt_eq_filter c c.selectMin.2 b (by omega)]
      by_cases hcmp : (getN c c.selectMin.2).distance + wt c c.selectMin.2 b
          ≤ (getN c b).distance
      · refine Or.inr ⟨c.selectMin.2, by rw [hcnt]; exact ha2, hspkA, ?_, ?_⟩
        · rw [← graphEq_edges hg]
          exact hedge
        · rw [hminwt, Nat.min_eq_right hcmp, hdistA, ← graphEq_wt hg]
      · have heq : (getN c' b).distance = (getN c b).distance := by
          rw [hminwt, Nat.min_eq_left (by omega)]
        exact hfromC heq

/-! ## The invariant survives the whole loop -/

theorem loopAux_inv : ∀ (k : Nat) (c : Calc), LoopInv c → LoopInv (loopAux k c) := by
  intro k
  induction k with
  | zero => intro c inv; exact inv
  | succ k ih =>
    intro c inv
    cases hr : c.round with
    | none =>
      have hstep : loopAux (k + 1) c = c := by simp [loopAux, hr]
      rw [hstep]
      exact inv
    | some c' =>
      have hstep : loopAux (k + 1) c = loopAux k c' := by simp [loopAux, hr]
      rw [hstep]
      exact ih c' (round_inv c c' inv hr)

/-- `setup(); loop()` leaves the graph unchanged. -/
theorem graphEq_compute (c : Calc) : GraphEq c c.setup.loop :=
  graphEq_trans (graphEq_setup c) (graphEq_loopAux _ _)

theorem loop_inv (c : Calc) (hwf : WF c) : LoopInv c.setup.loop :=
  loopAux_inv _ _ (setup_inv c hwf)

/-- Constructor for `WF` with every bounded condition phrased so that
`decide` can evaluate it on concrete states. -/
theorem wf_of_bounded (c : Calc) (h1 : c.nodes.length = c.max_nodes)
    (h2 : c.node_count ≤ c.max_nodes) (h3 : 1 ≤ c.node_count)
    (h4 : 1 ≤ c.width)
    (h5 : ∀ j, j < c.node_count → ∀ i, i < j → (getN c i).id ≠ (getN c j).id)
    (h6 : (getN c 0).distance = 0)
    (h7 : ∀ i, i < c.node_count → (getN c i).distance ≤ c.maxDistance)
    (h8 : edgeTotal c < c.maxDistance) : WF c :=
  ⟨h1, h2, h3, h4, fun i j hij hj => h5 j hj i hij, h6, h7, h8⟩

/-- Constructor for `NoParallelSource` in `decide`-friendly bounded form. -/
theorem noPar_of_bounded (c : Calc)
    (h : ∀ i, i < c.node_count → 1 ≤ i →
      ((getN c i).edges.filter (fun e => e.1 = (getN c 0).id)).length ≤ 1) :
    NoParallelSource c := fun i h1 h2 => h i h2 h1

/-! ## Claim C1 -/

/-- The literal claim fails on parallel edges to the source: `exC1`'s
node (id 2) stores two edges to the source, costs 5 then 3; `setup()`
seeds from the first match and `loop()` finalizes distance 5, yet the
known graph reaches the node at cost 3. -/
theorem C1_counterexample : ¬ OptimalDistances (exC1.setup.loop) := by
  intro h
  obtain ⟨l, hp, hcost, hmin⟩ := h 1 (by decide) (by decide)
  have h5 : (getN (exC1.setup.loop) 1).distance = 5 := by decide
  have hp2 : IsPathFT (exC1.setup.loop) 0 1 [0, 1] := ⟨by decide, rfl, rfl⟩
  have h3 : chainCost (exC1.setup.loop) [0, 1] = 3 := by decide
  have hle := hmin [0, 1] hp2
  rw [h3, h5] at hle
  omega

/-- C1 (amended): on a well-formed calculator (spec §3/§6) in which no
node lists the source more than once, `setup()` followed by `loop()`
computes exact shortest-path distances over the known graph: every
finalized node's distance is attained by a known path and no known path
is cheaper. -/
theorem C1_optimal_after_compute (c : Calc) (hwf : WF c)
    (hpar : NoParallelSource c) : OptimalDistances c.setup.loop := by
  have hinv := loop_inv c hwf
  have hparD : NoParallelSource c.setup.loop :=
    (graphEq_noPar (graphEq_compute c)).mp hpar
  intro i hi hspk
  obtain ⟨⟨l, hp, hcost⟩, hmin⟩ := hinv.exactD hparD i hi hspk
  exact ⟨l, hp, hcost, hmin⟩

theorem C1_optimal_after_compute_witness : OptimalDistances exScen.setup.loop :=
  C1_optimal_after_compute exScen
    (wf_of_bounded exScen (by decide) (by decide) (by decide) (by decide)
      (by decide) (by decide) (by decide) (by decide))
    (noPar_of_bounded exScen (by decide))

/-! ## The removal scan of `cleanup()` -/

/-- `remove` fails exactly on the source slot and on unknown ids. -/
theorem remove_fails (c : Calc) (rid : Nat)
    (h : c.get_index_by_id rid = c.node_count ∨ c.get_index_by_id rid = 0) :
    c.remove rid = (false, c) := by
  have hcond : ¬ (c.get_index_by_id rid ≠ c.node_count
      ∧ c.get_index_by_id rid ≠ 0) := by
    rcases h with h | h
    · intro hh
      exact hh.1 h
    · intro hh
      exact hh.2 h
  rw [Calc.remove]
  rw [if_neg hcond]

end LinkState
